import Mathlib

/-!
Verification of the pyvenue matching engine (src/pyvenue).

The Python source is shallowly embedded: Python `dict` / `OrderedDict`
become association lists in insertion order, prices and quantities are
`Int` (Python integers are unbounded), and code paths that `raise` are
modelled with `Except String`.  Definitions follow the source files
`domain/types.py`, `domain/events.py`, `domain/commands.py`,
`engine/orderbook.py`, `engine/state.py`, `engine/engine.py`, `venue.py`.
-/

namespace PyVenue

/-! ## Python dict, modelled as an association list in insertion order

Used for `OrderBook.bids`/`asks`, `orders_by_id`, `EngineState.orders`,
`accounts` and `accounts_held`.  `dictSet` overwrites in place when the key
exists (Python keeps the original position) and appends otherwise;
`dictDel` removes the entry of the key. -/

def dictGet {κ α : Type} [DecidableEq κ] (k : κ) : List (κ × α) → Option α
  | [] => none
  | (k', v) :: rest => if k' = k then some v else dictGet k rest

def dictSet {κ α : Type} [DecidableEq κ] (k : κ) (v : α) : List (κ × α) → List (κ × α)
  | [] => [(k, v)]
  | (k', v') :: rest => if k' = k then (k, v) :: rest else (k', v') :: dictSet k v rest

def dictDel {κ α : Type} [DecidableEq κ] (k : κ) : List (κ × α) → List (κ × α)
  | [] => []
  | (k', v') :: rest => if k' = k then rest else (k', v') :: dictDel k rest

def dictHas {κ α : Type} [DecidableEq κ] (k : κ) (d : List (κ × α)) : Bool :=
  (dictGet k d).isSome

/-! ## Domain types (`src/pyvenue/domain/types.py`)

`OrderId`, `Instrument`, `AccountId`, `Asset` are string newtypes and are
modelled as `String`; `Price.ticks` and `Qty.lots` are unwrapped to `Int`. -/

inductive Side
  | BUY
  | SELL
deriving DecidableEq, Repr

def Side.opposite : Side → Side
  | .BUY => .SELL
  | .SELL => .BUY

inductive TimeInForce
  | GTC
  | IOC
  | FOK
deriving DecidableEq, Repr

/-! ## Events (`src/pyvenue/domain/events.py`)

`events.py` defines the first seven constructors; its `Event` union does not
contain any funds event.  `engine/state.py` imports and handles
`FundsCredited`, `FundsReserved`, `FundsReleased`, whose dataclass
definitions are missing from the repository; their fields
`(seq, ts_ns, instrument, account_id, asset, amount)` are modelled from the
spec (section 2 event table, section 4.3) and from the construction in
`tests/utils.py`.  `OrderExpired` carries no `reason` field in `events.py`. -/

inductive Event
  | orderAccepted (seq ts_ns : Int) (instrument order_id : String)
      (side : Side) (price qty : Int)
  | orderRejected (seq ts_ns : Int) (instrument order_id reason : String)
  | orderCanceled (seq ts_ns : Int) (instrument order_id : String)
  | tradeOccurred (seq ts_ns : Int) (instrument taker_order_id maker_order_id : String)
      (price qty : Int)
  | topOfBookChanged (seq ts_ns : Int) (instrument : String)
      (best_bid_ticks best_ask_ticks : Option Int)
  | orderRested (seq ts_ns : Int) (instrument order_id : String)
      (side : Side) (price qty : Int)
  | orderExpired (seq ts_ns : Int) (instrument order_id : String) (qty : Int)
  | fundsCredited (seq ts_ns : Int) (instrument account_id asset : String) (amount : Int)
  | fundsReserved (seq ts_ns : Int) (instrument account_id asset : String) (amount : Int)
  | fundsReleased (seq ts_ns : Int) (instrument account_id asset : String) (amount : Int)
deriving DecidableEq, Repr

def Event.instrument : Event → String
  | .orderAccepted _ _ i _ _ _ _ => i
  | .orderRejected _ _ i _ _ => i
  | .orderCanceled _ _ i _ => i
  | .tradeOccurred _ _ i _ _ _ _ => i
  | .topOfBookChanged _ _ i _ _ => i
  | .orderRested _ _ i _ _ _ _ => i
  | .orderExpired _ _ i _ _ => i
  | .fundsCredited _ _ i _ _ _ => i
  | .fundsReserved _ _ i _ _ _ => i
  | .fundsReleased _ _ i _ _ _ => i

def Event.typeName : Event → String
  | .orderAccepted .. => "OrderAccepted"
  | .orderRejected .. => "OrderRejected"
  | .orderCanceled .. => "OrderCanceled"
  | .tradeOccurred .. => "TradeOccurred"
  | .topOfBookChanged .. => "TopOfBookChanged"
  | .orderRested .. => "OrderRested"
  | .orderExpired .. => "OrderExpired"
  | .fundsCredited .. => "FundsCredited"
  | .fundsReserved .. => "FundsReserved"
  | .fundsReleased .. => "FundsReleased"

/-! ## Commands (`src/pyvenue/domain/commands.py`) -/

inductive Command
  | placeLimit (instrument account_id order_id : String) (side : Side)
      (price qty client_ts_ns : Int) (tif : TimeInForce) (post_only : Bool)
  | cancel (instrument account_id order_id : String) (client_ts_ns : Int)
  | placeMarket (instrument account_id order_id : String) (side : Side)
      (qty client_ts_ns : Int)
deriving DecidableEq, Repr

def Command.instrument : Command → String
  | .placeLimit i _ _ _ _ _ _ _ _ => i
  | .cancel i _ _ _ => i
  | .placeMarket i _ _ _ _ _ => i

def Command.order_id : Command → String
  | .placeLimit _ _ o _ _ _ _ _ _ => o
  | .cancel _ _ o _ => o
  | .placeMarket _ _ o _ _ _ => o

/-! ## RestingOrder, Fill, PriceLevel (`src/pyvenue/engine/orderbook.py`) -/

structure RestingOrder where
  order_id : String
  instrument : String
  side : Side
  price : Int
  remaining : Int
deriving DecidableEq, Repr

structure Fill where
  maker_order_id : String
  maker_price : Int
  qty : Int
deriving DecidableEq, Repr

/-- `PriceLevel.orders` is an `OrderedDict[OrderId, RestingOrder]`; the keys
are the `order_id` fields of the stored orders, so it is modelled as the
list of orders in insertion order. -/
structure PriceLevel where
  price : Int
  orders : List RestingOrder
deriving DecidableEq, Repr

/-- `self.orders[order.order_id] = order`: overwrite in place if the id is
present, append otherwise. -/
def PriceLevel.add (lvl : PriceLevel) (o : RestingOrder) : PriceLevel :=
  { lvl with orders := addOrder o lvl.orders }
where
  addOrder (o : RestingOrder) : List RestingOrder → List RestingOrder
    | [] => [o]
    | r :: rest => if r.order_id = o.order_id then o :: rest else r :: addOrder o rest

/-- `self.orders.pop(order_id, None)`: remove by id, report whether found. -/
def PriceLevel.cancel (lvl : PriceLevel) (oid : String) : Bool × PriceLevel :=
  let rec go : List RestingOrder → Option (List RestingOrder)
    | [] => none
    | r :: rest =>
      if r.order_id = oid then some rest
      else (go rest).map (r :: ·)
  match go lvl.orders with
  | some os => (true, { lvl with orders := os })
  | none => (false, lvl)

def PriceLevel.peek_oldest (lvl : PriceLevel) : Option RestingOrder :=
  lvl.orders.head?

/-! ## OrderBook (`src/pyvenue/engine/orderbook.py`) -/

structure OrderBook where
  instrument : String
  bids : List (Int × PriceLevel)
  asks : List (Int × PriceLevel)
  bid_prices : List Int
  ask_prices : List Int
  orders_by_id : List (String × (Side × Int))
deriving DecidableEq, Repr

def OrderBook.empty (instrument : String) : OrderBook :=
  ⟨instrument, [], [], [], [], []⟩

/-- Best bid is the last element of the ascending bid ladder. -/
def OrderBook.best_bid (b : OrderBook) : Option Int :=
  b.bid_prices.getLast?

/-- Best ask is the first element of the ascending ask ladder. -/
def OrderBook.best_ask (b : OrderBook) : Option Int :=
  b.ask_prices.head?

def OrderBook.top_of_book (b : OrderBook) : Option Int × Option Int :=
  (b.best_bid, b.best_ask)

/-- `bisect.insort` on an ascending list: insert after all elements `≤ x`. -/
def insort (x : Int) : List Int → List Int
  | [] => [x]
  | y :: ys => if y ≤ x then y :: insort x ys else x :: y :: ys

/-- `i = bisect.bisect_left(prices, x); if i >= len or prices[i] != x: raise;
prices.pop(i)` — on the (always sorted) ladder this removes `x`, and raises
`RuntimeError("... out of sync ...")` when `x` is not present. -/
def removeSorted (x : Int) : List Int → Except String (List Int)
  | [] => .error "prices out of sync"
  | y :: ys =>
    if y < x then (fun l => y :: l) <$> removeSorted x ys
    else if y = x then .ok ys
    else .error "prices out of sync"

def OrderBook._ensure_level (b : OrderBook) (side : Side) (price_ticks : Int) : OrderBook :=
  match side with
  | .BUY =>
    if dictHas price_ticks b.bids then b
    else { b with bid_prices := insort price_ticks b.bid_prices
                  bids := dictSet price_ticks ⟨price_ticks, []⟩ b.bids }
  | .SELL =>
    if dictHas price_ticks b.asks then b
    else { b with ask_prices := insort price_ticks b.ask_prices
                  asks := dictSet price_ticks ⟨price_ticks, []⟩ b.asks }

def OrderBook._get_level (b : OrderBook) (side : Side) (price_ticks : Int) : Option PriceLevel :=
  match side with
  | .BUY => dictGet price_ticks b.bids
  | .SELL => dictGet price_ticks b.asks

def OrderBook._remove_level_if_empty (b : OrderBook) (side : Side) (price_ticks : Int) :
    Except String OrderBook :=
  match side with
  | .BUY =>
    match dictGet price_ticks b.bids with
    | some lvl =>
      if lvl.orders.isEmpty then do
        let lad ← removeSorted price_ticks b.bid_prices
        .ok { b with bids := dictDel price_ticks b.bids, bid_prices := lad }
      else .ok b
    | none => .ok b
  | .SELL =>
    match dictGet price_ticks b.asks with
    | some lvl =>
      if lvl.orders.isEmpty then do
        let lad ← removeSorted price_ticks b.ask_prices
        .ok { b with asks := dictDel price_ticks b.asks, ask_prices := lad }
      else .ok b
    | none => .ok b

/-- `_rest`: register in `orders_by_id`, ensure the level, append the order. -/
def OrderBook._rest (b : OrderBook) (o : RestingOrder) : OrderBook :=
  let b1 := { b with orders_by_id := dictSet o.order_id (o.side, o.price) b.orders_by_id }
  let b2 := b1._ensure_level o.side o.price
  match o.side with
  | .BUY =>
    { b2 with bids := dictSet o.price (((dictGet o.price b2.bids).getD ⟨o.price, []⟩).add o) b2.bids }
  | .SELL =>
    { b2 with asks := dictSet o.price (((dictGet o.price b2.asks).getD ⟨o.price, []⟩).add o) b2.asks }

def OrderBook._crosses (taker_side : Side) (taker_price_ticks best_opp_price_ticks : Int) : Bool :=
  match taker_side with
  | .BUY => best_opp_price_ticks ≤ taker_price_ticks
  | .SELL => taker_price_ticks ≤ best_opp_price_ticks

/-- The inner `while` of `OrderBook._match` at one level with price `p`:
consume makers oldest-first.  Returns the fills, the remaining taker
quantity, the remaining level queue, and the ids of fully-filled makers
(which the source pops from `orders_by_id`; the defensive pop of a stale
maker with `remaining <= 0` does not touch `orders_by_id`). -/
def matchLevel (p : Int) (qty : Int) :
    List RestingOrder → List Fill × Int × List RestingOrder × List String
  | [] => ([], qty, [], [])
  | o :: rest =>
    if qty ≤ 0 then ([], qty, o :: rest, [])
    else if o.remaining ≤ 0 then matchLevel p qty rest
    else
      let fq := min qty o.remaining
      if o.remaining - fq = 0 then
        let r := matchLevel p (qty - fq) rest
        (⟨o.order_id, p, fq⟩ :: r.1, r.2.1, r.2.2.1, o.order_id :: r.2.2.2)
      else
        ([⟨o.order_id, p, fq⟩], qty - fq, { o with remaining := o.remaining - fq } :: rest, [])

structure MatchResult where
  fills : List Fill
  remaining : Int
  levels : List (Int × PriceLevel)
  ladder : List Int
  index : List (String × (Side × Int))
deriving DecidableEq, Repr

/-- The outer `while` of `OrderBook._match`, walking the opposite ladder in
best-first order.  `ladder` is the opposite price ladder with the best price
first; `levels` is the opposite price→level dict and `index` is
`orders_by_id`.  A price on the ladder with no level in the dict is the
`RuntimeError("No level found for price: ...")` of the source; an emptied
level is deleted (`_remove_level_if_empty`; its ladder bisect check cannot
fail here because the removed price is the ladder element being visited).
When the level is not exhausted the taker is (the inner loop guarantees
`remaining = 0`) and the loop stops with the level updated in place. -/
def matchSide (crosses : Int → Bool) (levels : List (Int × PriceLevel))
    (index : List (String × (Side × Int))) (qty : Int) :
    List Int → Except String MatchResult
  | [] => .ok ⟨[], qty, levels, [], index⟩
  | p :: rest =>
    if qty ≤ 0 then .ok ⟨[], qty, levels, p :: rest, index⟩
    else if ¬ crosses p then .ok ⟨[], qty, levels, p :: rest, index⟩
    else
      match dictGet p levels with
      | none => .error "No level found for price"
      | some lvl =>
        let r := matchLevel p qty lvl.orders
        let index' := r.2.2.2.foldl (fun ix i => dictDel i ix) index
        if r.2.2.1.isEmpty then do
          let r2 ← matchSide crosses (dictDel p levels) index' r.2.1 rest
          .ok ⟨r.1 ++ r2.fills, r2.remaining, r2.levels, r2.ladder, r2.index⟩
        else
          .ok ⟨r.1, r.2.1, dictSet p { lvl with orders := r.2.2.1 } levels, p :: rest, index'⟩

/-- `OrderBook._match`.  For a BUY taker the maker side is SELL and the best
opposite is the head of `ask_prices`; for a SELL taker the best opposite is
the last of `bid_prices`, so the ladder is walked in reverse. -/
def OrderBook._match (b : OrderBook) (taker_side : Side) (taker_price_ticks taker_qty_lots : Int) :
    Except String (List Fill × Int × OrderBook) :=
  match taker_side with
  | .BUY => do
    let r ← matchSide (fun op => op ≤ taker_price_ticks) b.asks b.orders_by_id
      taker_qty_lots b.ask_prices
    .ok (r.fills, r.remaining,
      { b with asks := r.levels, ask_prices := r.ladder, orders_by_id := r.index })
  | .SELL => do
    let r ← matchSide (fun op => taker_price_ticks ≤ op) b.bids b.orders_by_id
      taker_qty_lots b.bid_prices.reverse
    .ok (r.fills, r.remaining,
      { b with bids := r.levels, bid_prices := r.ladder.reverse, orders_by_id := r.index })

/-- `OrderBook.place_limit(self, order)`: match, then rest any remainder.
The source has no `rest` parameter — the remainder always rests. -/
def OrderBook.place_limit (b : OrderBook) (o : RestingOrder) :
    Except String (List Fill × Int × OrderBook) :=
  if o.instrument ≠ b.instrument then
    .error "Order instrument does not match book instrument"
  else do
    let (fills, remaining, b1) ← b._match o.side o.price o.remaining
    if 0 < remaining then
      .ok (fills, remaining, b1._rest { o with remaining := remaining })
    else
      .ok (fills, remaining, b1)

/-- `OrderBook.cancel`: a missing id, a missing level, or a level without the
id all return `False`; a successful removal also removes the level if now
empty and erases the `orders_by_id` entry. -/
def OrderBook.cancel (b : OrderBook) (oid : String) : Except String (Bool × OrderBook) :=
  match dictGet oid b.orders_by_id with
  | none => .ok (false, b)
  | some (side, price) =>
    match side with
    | .BUY =>
      match dictGet price b.bids with
      | none => .ok (false, b)
      | some lvl =>
        match lvl.cancel oid with
        | (false, _) => .ok (false, b)
        | (true, lvl') => do
          let b1 := { b with bids := dictSet price lvl' b.bids }
          let b2 ← b1._remove_level_if_empty .BUY price
          .ok (true, { b2 with orders_by_id := dictDel oid b2.orders_by_id })
    | .SELL =>
      match dictGet price b.asks with
      | none => .ok (false, b)
      | some lvl =>
        match lvl.cancel oid with
        | (false, _) => .ok (false, b)
        | (true, lvl') => do
          let b1 := { b with asks := dictSet price lvl' b.asks }
          let b2 ← b1._remove_level_if_empty .SELL price
          .ok (true, { b2 with orders_by_id := dictDel oid b2.orders_by_id })

/-- `OrderBook.apply_event`: only `OrderRested` is handled; every other event
kind raises `ValueError(f"Event type {...} not implemented")` (the source
carries the comment `# handle TradeOccurred and OrderCanceled` but no code). -/
def OrderBook.apply_event (b : OrderBook) (e : Event) : Except String OrderBook :=
  match e with
  | .orderRested _ _ instrument order_id side price qty =>
    .ok (b._rest ⟨order_id, instrument, side, price, qty⟩)
  | _ => .error ("Event type " ++ e.typeName ++ " not implemented")

/-! ## EngineState (`src/pyvenue/engine/state.py`) -/

inductive OrderStatus
  | ACTIVE
  | CANCELED
  | FILLED
  | EXPIRED
deriving DecidableEq, Repr

structure OrderRecord where
  instrument : String
  order_id : String
  side : Side
  price : Int
  qty : Int
  remaining : Int
  status : OrderStatus
deriving DecidableEq, Repr

structure EngineState where
  orders : List (String × OrderRecord)
  accounts : List (String × List (String × Int))
  accounts_held : List (String × List (String × Int))
deriving DecidableEq, Repr

def EngineState.init : EngineState := ⟨[], [], []⟩

/-- `return self.accounts[account][asset]` — a missing key raises `KeyError`,
modelled by `none`. -/
def EngineState.available (st : EngineState) (account asset : String) : Option Int :=
  (dictGet account st.accounts).bind (dictGet asset)

/-- `return self.accounts_held[account][asset]` — a missing key raises
`KeyError`, modelled by `none`. -/
def EngineState.held (st : EngineState) (account asset : String) : Option Int :=
  (dictGet account st.accounts_held).bind (dictGet asset)

/-- The per-record update of `apply(TradeOccurred)`: remaining is decremented
clamped at 0, and an `ACTIVE` record that reaches 0 becomes `FILLED`. -/
def tradeUpdate (r : OrderRecord) (qty : Int) : OrderRecord :=
  let rem := max 0 (r.remaining - qty)
  { r with remaining := rem
           status := if rem = 0 ∧ r.status = .ACTIVE then .FILLED else r.status }

/-- `EngineState.apply`.  The `TradeOccurred` handler iterates
`(taker_order_id, maker_order_id)` and `return`s early when a record is
missing, so a missing taker record skips the maker update.  The three funds
handlers mirror `state.py` exactly: `FundsCredited` *assigns*
`accounts[acct][asset] = amount` (not `+=`) and resets the held entry to 0;
`FundsReserved` / `FundsReleased` raise `ValueError` on missing accounts or
insufficient funds. -/
def EngineState.apply (st : EngineState) (e : Event) : Except String EngineState :=
  match e with
  | .orderAccepted _ _ instrument order_id side price qty =>
    .ok { st with orders :=
            dictSet order_id ⟨instrument, order_id, side, price, qty, qty, .ACTIVE⟩ st.orders }
  | .orderCanceled _ _ _ order_id =>
    match dictGet order_id st.orders with
    | none => .ok st
    | some r => .ok { st with orders := dictSet order_id { r with status := .CANCELED } st.orders }
  | .tradeOccurred _ _ _ taker_order_id maker_order_id _ qty =>
    match dictGet taker_order_id st.orders with
    | none => .ok st
    | some rt =>
      let st1 := { st with orders := dictSet taker_order_id (tradeUpdate rt qty) st.orders }
      match dictGet maker_order_id st1.orders with
      | none => .ok st1
      | some rm =>
        .ok { st1 with orders := dictSet maker_order_id (tradeUpdate rm qty) st1.orders }
  | .orderExpired _ _ _ order_id _ =>
    match dictGet order_id st.orders with
    | none => .ok st
    | some r => .ok { st with orders := dictSet order_id { r with status := .EXPIRED } st.orders }
  | .orderRejected .. => .ok st
  | .topOfBookChanged .. => .ok st
  | .orderRested .. => .ok st
  | .fundsCredited _ _ _ account_id asset amount =>
    let inner := (dictGet account_id st.accounts).getD []
    let innerHeld := (dictGet account_id st.accounts_held).getD []
    .ok { st with
      accounts := dictSet account_id (dictSet asset amount inner) st.accounts
      accounts_held := dictSet account_id (dictSet asset 0 innerHeld) st.accounts_held }
  | .fundsReserved _ _ _ account_id asset amount =>
    match dictGet account_id st.accounts with
    | none => .error "Account not found"
    | some inner =>
      match dictGet asset inner with
      | none => .error "Asset not found for account"
      | some avail =>
        if avail < amount then .error "Insufficient funds"
        else
          let innerHeld := (dictGet account_id st.accounts_held).getD []
          let heldVal := (dictGet asset innerHeld).getD 0
          .ok { st with
            accounts := dictSet account_id (dictSet asset (avail - amount) inner) st.accounts
            accounts_held :=
              dictSet account_id (dictSet asset (heldVal + amount) innerHeld) st.accounts_held }
  | .fundsReleased _ _ _ account_id asset amount =>
    match dictGet account_id st.accounts_held with
    | none => .error "Account not found"
    | some innerHeld =>
      match dictGet asset innerHeld with
      | none => .error "Asset not found for account"
      | some heldVal =>
        if heldVal < amount then .error "Insufficient held funds"
        else
          match dictGet account_id st.accounts with
          | none => .error "Account not found"
          | some inner =>
            match dictGet asset inner with
            | none => .error "Asset not found for account"
            | some avail =>
              .ok { st with
                accounts_held :=
                  dictSet account_id (dictSet asset (heldVal - amount) innerHeld) st.accounts_held
                accounts := dictSet account_id (dictSet asset (avail + amount) inner) st.accounts }

/-- `EngineState.apply_all`. -/
def applyAllE (st : EngineState) : List Event → Except String EngineState
  | [] => .ok st
  | e :: rest => do
    let st1 ← st.apply e
    applyAllE st1 rest

/-! ## Engine (`src/pyvenue/engine/engine.py`)

`next_meta` is the injected metadata oracle; the venue implementation (and
the tests' `NextMeta`) increments a counter and reads a fixed clock, so the
embedding threads an integer `seq` and a constant timestamp `ts` through
each handler, and every `next_meta()` call becomes `seq + 1`. -/

structure EngineModel where
  instrument : String
  state : EngineState
  log : List Event
  book : OrderBook
deriving DecidableEq, Repr

def EngineModel.init (instrument : String) : EngineModel :=
  ⟨instrument, EngineState.init, [], OrderBook.empty instrument⟩

def Engine._reject (seq ts : Int) (instrument order_id reason : String) : Event :=
  .orderRejected seq ts instrument order_id reason

/-- The post-only check of `handle(PlaceLimit)`. -/
def postOnlyCrosses (b : OrderBook) (side : Side) (price : Int) : Bool :=
  match side with
  | .BUY =>
    match b.best_ask with
    | some best_ask => best_ask ≤ price
    | none => false
  | .SELL =>
    match b.best_bid with
    | some best_bid => price ≤ best_bid
    | none => false

/-- The `TypeError` raised by `self.book.place_limit(order, rest=...)`:
`OrderBook.place_limit` accepts no `rest` parameter, so every accepted
limit or market order raises before the book is touched. -/
def placeLimitKeywordError : String :=
  "TypeError: place_limit() got an unexpected keyword argument rest"

/-- `Engine.handle` for `PlaceLimit`.  Validation mirrors the source; on the
accepted path the source builds `OrderAccepted` and then calls
`self.book.place_limit(order, rest=(tif == GTC))`, which raises `TypeError`
(there is no `rest` parameter), so the handler never returns.  There is no
FOK probe anywhere in the handler. -/
def EngineModel.handlePlaceLimit (eng : EngineModel) (seq ts : Int)
    (account_id order_id : String) (side : Side) (price qty : Int)
    (tif : TimeInForce) (post_only : Bool) (instrument : String) :
    Except String (List Event × EngineModel × Int) :=
  if qty ≤ 0 then
    .ok ([Engine._reject (seq + 1) ts instrument order_id "qty must be > 0"], eng, seq + 1)
  else if price ≤ 0 then
    .ok ([Engine._reject (seq + 1) ts instrument order_id "price must be > 0"], eng, seq + 1)
  else if dictHas order_id eng.state.orders then
    .ok ([Engine._reject (seq + 1) ts instrument order_id "duplicate order_id"], eng, seq + 1)
  else if post_only ∧ postOnlyCrosses eng.book side price then
    .ok ([Engine._reject (seq + 1) ts instrument order_id "post-only order would cross"],
      eng, seq + 1)
  else
    .error placeLimitKeywordError

/-- `Engine.handle` for `PlaceMarket`: validation, then the same fatal
`rest=False` keyword call. -/
def EngineModel.handlePlaceMarket (eng : EngineModel) (seq ts : Int)
    (account_id order_id : String) (side : Side) (qty : Int) (instrument : String) :
    Except String (List Event × EngineModel × Int) :=
  if qty ≤ 0 then
    .ok ([Engine._reject (seq + 1) ts instrument order_id "qty must be > 0"], eng, seq + 1)
  else if dictHas order_id eng.state.orders then
    .ok ([Engine._reject (seq + 1) ts instrument order_id "duplicate order_id"], eng, seq + 1)
  else
    .error placeLimitKeywordError

/-- `Engine.handle` for `Cancel`. -/
def EngineModel.handleCancel (eng : EngineModel) (seq ts : Int)
    (account_id order_id : String) (instrument : String) :
    Except String (List Event × EngineModel × Int) :=
  match dictGet order_id eng.state.orders with
  | none =>
    .ok ([Engine._reject (seq + 1) ts instrument order_id "unknown order_id"], eng, seq + 1)
  | some record =>
    if record.status ≠ .ACTIVE then
      .ok ([Engine._reject (seq + 1) ts instrument order_id "order not cancelable"], eng, seq + 1)
    else do
      let (found, book') ← eng.book.cancel order_id
      if ¬ found then
        .ok ([Engine._reject (seq + 1) ts instrument order_id "order_id not in book"], eng, seq + 1)
      else
        .ok ([Event.orderCanceled (seq + 1) ts instrument order_id],
          { eng with book := book' }, seq + 1)

def EngineModel.handle (eng : EngineModel) (seq ts : Int) (cmd : Command) :
    Except String (List Event × EngineModel × Int) :=
  match cmd with
  | .placeLimit instrument account_id order_id side price qty _ tif post_only =>
    eng.handlePlaceLimit seq ts account_id order_id side price qty tif post_only instrument
  | .placeMarket instrument account_id order_id side qty _ =>
    eng.handlePlaceMarket seq ts account_id order_id side qty instrument
  | .cancel instrument account_id order_id _ =>
    eng.handleCancel seq ts account_id order_id instrument

/-- `Engine.submit`: instrument-mismatch rejection, otherwise dispatch to
`handle`; a changed top-of-book appends `TopOfBookChanged`; finally each
event is appended to the log and folded into the state. -/
def EngineModel.submit (eng : EngineModel) (seq ts : Int) (cmd : Command) :
    Except String (List Event × EngineModel × Int) :=
  if cmd.instrument ≠ eng.instrument then do
    let events := [Engine._reject (seq + 1) ts cmd.instrument cmd.order_id "instrument mismatch"]
    let st ← applyAllE eng.state events
    .ok (events, { eng with state := st, log := eng.log ++ events }, seq + 1)
  else do
    let top := eng.book.top_of_book
    let (events0, eng1, seq1) ← eng.handle seq ts cmd
    let withTop :=
      if top ≠ eng1.book.top_of_book then
        (events0 ++ [Event.topOfBookChanged (seq1 + 1) ts eng.instrument
          eng1.book.best_bid eng1.book.best_ask], seq1 + 1)
      else (events0, seq1)
    let st ← applyAllE eng1.state withTop.1
    .ok (withTop.1, { eng1 with state := st, log := eng1.log ++ withTop.1 }, withTop.2)

/-- `Engine.replay`: fold the matching events of the stream into a fresh
engine; with `rebuild_book` each one also goes through
`OrderBook.apply_event`. -/
def EngineModel.replay (instrument : String) (events : List Event) (rebuild_book : Bool) :
    Except String EngineModel :=
  go (EngineModel.init instrument) events
where
  go (eng : EngineModel) : List Event → Except String EngineModel
    | [] => .ok eng
    | e :: rest =>
      if e.instrument = eng.instrument then do
        let st ← eng.state.apply e
        let bk ← if rebuild_book then eng.book.apply_event e else .ok eng.book
        go { eng with log := eng.log ++ [e], state := st, book := bk } rest
      else go eng rest

/-! ## Venue (`src/pyvenue/venue.py`)

The venue owns the shared `seq` counter (`_next_meta`) and a clock; the
clock is modelled as a constant timestamp `ts`. -/

structure Venue where
  instruments : List String
  engines : List (String × EngineModel)
  seq : Int
deriving DecidableEq, Repr

def Venue.init (instruments : List String) : Venue :=
  ⟨instruments, instruments.map (fun i => (i, EngineModel.init i)), 0⟩

/-- `Venue.submit`: an instrument with no engine yields a single
`OrderRejected{reason="instrument not found"}` built from `_next_meta`
(which increments the shared counter); nothing else is touched.  Otherwise
the command is delegated to the instrument's engine. -/
def Venue.submit (v : Venue) (ts : Int) (cmd : Command) : Except String (List Event × Venue) :=
  match dictGet cmd.instrument v.engines with
  | none =>
    .ok ([Engine._reject (v.seq + 1) ts cmd.instrument cmd.order_id "instrument not found"],
      { v with seq := v.seq + 1 })
  | some eng => do
    let (events, eng', seq') ← eng.submit v.seq ts cmd
    .ok (events, { v with engines := dictSet cmd.instrument eng' v.engines, seq := seq' })

/-! ## Well-formedness of a book (the invariants of spec section 3)

`LevelWF`: every order in a level carries the level's price and side, has
positive remaining quantity, and levels are non-empty (I3).  `BookWF` adds
the sorted price ladders. -/

def LevelWF (side : Side) (e : Int × PriceLevel) : Prop :=
  e.2.orders ≠ [] ∧ ∀ o ∈ e.2.orders, o.price = e.1 ∧ o.side = side ∧ 0 < o.remaining

instance (side : Side) (e : Int × PriceLevel) : Decidable (LevelWF side e) := by
  unfold LevelWF; infer_instance

structure BookWF (b : OrderBook) : Prop where
  bidsWF : ∀ e ∈ b.bids, LevelWF .BUY e
  asksWF : ∀ e ∈ b.asks, LevelWF .SELL e
  bidSorted : b.bid_prices.Sorted (· < ·)
  askSorted : b.ask_prices.Sorted (· < ·)

/-! ## Observation helpers used by the theorem statements -/

/-- All orders resting in the book, bid levels then ask levels. -/
def OrderBook.restingOrders (b : OrderBook) : List RestingOrder :=
  (b.bids.map (fun e => e.2.orders)).flatten ++ (b.asks.map (fun e => e.2.orders)).flatten

def fillIds (fills : List Fill) : List String := fills.map (·.maker_order_id)

/-- The fills taken at price level `p`, in order. -/
def fillsAt (p : Int) (fills : List Fill) : List Fill :=
  fills.filter (fun f => f.maker_price = p)

/-- The maker queue (as ids, oldest first) of the level at price `p`, `[]`
when there is no such level. -/
def levelIdsAt (d : List (Int × PriceLevel)) (p : Int) : List String :=
  ((dictGet p d).map (fun lvl => lvl.orders.map (·.order_id))).getD []

def fillsQtySum (fills : List Fill) : Int := (fills.map (·.qty)).sum

/-- Total quantity filled against maker `id`. -/
def fillsQtyTo (id : String) (fills : List Fill) : Int :=
  fillsQtySum (fills.filter (fun f => f.maker_order_id = id))

/-- Total remaining quantity of orders with this id in a level queue. -/
def remOfOrders (id : String) (os : List RestingOrder) : Int :=
  ((os.filter (fun o => o.order_id = id)).map (·.remaining)).sum

def remInLevels (id : String) (d : List (Int × PriceLevel)) : Int :=
  (d.map (fun e => remOfOrders id e.2.orders)).sum

/-- Total resting remaining quantity of order `id` in the book. -/
def OrderBook.bookRemaining (id : String) (b : OrderBook) : Int :=
  remInLevels id b.bids + remInLevels id b.asks

/-- The best opposite price for an incoming taker. -/
def bestOpp (b : OrderBook) : Side → Option Int
  | .BUY => b.best_ask
  | .SELL => b.best_bid

/-- The opposite (maker side) price→level dict for an incoming taker. -/
def oppLevels (b : OrderBook) : Side → List (Int × PriceLevel)
  | .BUY => b.asks
  | .SELL => b.bids

/-- `priceNoWorse side x y`: a fill at price `x` is at least as good for the
taker as a later fill at price `y`. -/
def priceNoWorse : Side → Int → Int → Prop
  | .BUY => (· ≤ ·)
  | .SELL => fun x y => y ≤ x

/-! ## Dictionary lemmas -/

theorem dictGet_mem {κ α : Type} [DecidableEq κ] {k : κ} {v : α} :
    ∀ {d : List (κ × α)}, dictGet k d = some v → (k, v) ∈ d
  | [], h => by simp [dictGet] at h
  | (k', v') :: rest, h => by
    by_cases hk : k' = k
    · subst hk
      simp [dictGet] at h
      simp [h]
    · simp [dictGet, hk] at h
      exact List.mem_cons_of_mem _ (dictGet_mem h)

theorem dictGet_dictSet_self {κ α : Type} [DecidableEq κ] (k : κ) (v : α) :
    ∀ (d : List (κ × α)), dictGet k (dictSet k v d) = some v
  | [] => by simp [dictGet, dictSet]
  | (k', v') :: rest => by
    by_cases hk : k' = k
    · simp [dictGet, dictSet, hk]
    · simp [dictGet, dictSet, hk, dictGet_dictSet_self k v rest]

theorem dictGet_dictSet_ne {κ α : Type} [DecidableEq κ] {k k' : κ} (v : α) (h : k ≠ k') :
    ∀ (d : List (κ × α)), dictGet k (dictSet k' v d) = dictGet k d
  | [] => by simp [dictGet, dictSet, Ne.symm h]
  | (k0, v0) :: rest => by
    by_cases hk : k0 = k'
    · subst hk
      simp [dictGet, dictSet, Ne.symm h]
    · by_cases hk2 : k0 = k
      · simp [dictGet, dictSet, hk, hk2, h]
      · simp [dictGet, dictSet, hk, hk2, dictGet_dictSet_ne v h rest]

theorem dictGet_dictDel_ne {κ α : Type} [DecidableEq κ] {k k' : κ} (h : k ≠ k') :
    ∀ (d : List (κ × α)), dictGet k (dictDel k' d) = dictGet k d
  | [] => by simp [dictGet, dictDel]
  | (k0, v0) :: rest => by
    by_cases hk : k0 = k'
    · subst hk
      simp [dictGet, dictDel, Ne.symm h]
    · by_cases hk2 : k0 = k
      · simp [dictGet, dictDel, hk, hk2, h]
      · simp [dictGet, dictDel, hk, hk2, dictGet_dictDel_ne h rest]

theorem mem_dictDel {κ α : Type} [DecidableEq κ] {k : κ} {x : κ × α} :
    ∀ {d : List (κ × α)}, x ∈ dictDel k d → x ∈ d
  | [], h => by simp [dictDel] at h
  | (k', v') :: rest, h => by
    by_cases hk : k' = k
    · simp [dictDel, hk] at h
      exact List.mem_cons_of_mem _ h
    · simp only [dictDel, hk, if_false, List.mem_cons] at h
      rcases h with h | h
      · exact h ▸ List.mem_cons_self _ _
      · exact List.mem_cons_of_mem _ (mem_dictDel h)

theorem mem_dictSet {κ α : Type} [DecidableEq κ] {k : κ} {v : α} {x : κ × α} :
    ∀ {d : List (κ × α)}, x ∈ dictSet k v d → x = (k, v) ∨ x ∈ d
  | [], h => by simpa [dictSet] using h
  | (k', v') :: rest, h => by
    by_cases hk : k' = k
    · simp only [dictSet, hk, if_true, List.mem_cons] at h
      rcases h with h | h
      · exact Or.inl h
      · exact Or.inr (List.mem_cons_of_mem _ h)
    · simp only [dictSet, hk, if_false, List.mem_cons] at h
      rcases h with h | h
      · exact Or.inr (h ▸ List.mem_cons_self _ _)
      · rcases mem_dictSet h with h | h
        · exact Or.inl h
        · exact Or.inr (List.mem_cons_of_mem _ h)

/-! ## Ladder lemmas -/

theorem mem_insort {x a : Int} : ∀ {l : List Int}, x ∈ insort a l ↔ x = a ∨ x ∈ l
  | [] => by simp [insort]
  | y :: ys => by
    by_cases hy : y ≤ a
    · simp only [insort, hy, if_true, List.mem_cons, mem_insort (l := ys)]
      tauto
    · simp only [insort, hy, if_false, List.mem_cons]

theorem mem_removeSorted {x : Int} {l l' : List Int}
    (h : removeSorted x l = .ok l') : ∀ y ∈ l', y ∈ l := by
  induction l generalizing l' with
  | nil => simp [removeSorted] at h
  | cons z zs ih =>
    by_cases hz : z < x
    · simp only [removeSorted, hz, if_true] at h
      cases hrec : removeSorted x zs with
      | error e => rw [hrec] at h; simp [Except.map] at h
      | ok l2 =>
        rw [hrec] at h
        simp only [Except.map_ok, Except.ok.injEq] at h
        subst h
        intro y hy
        rcases hy with _ | hy
        · exact List.mem_cons_self _ _
        · exact List.mem_cons_of_mem _ (ih hrec _ (by assumption))
    · by_cases hz2 : z = x
      · subst hz2
        simp only [removeSorted, lt_irrefl, if_false, if_true, Except.ok.injEq] at h
        intro y hy
        exact List.mem_cons_of_mem _ (h ▸ hy)
      · simp [removeSorted, hz, hz2] at h

/-! ## Facts about the inner matching loop (`matchLevel`) -/

theorem matchLevel_fills_mem {p : Int} {qty : Int} {os : List RestingOrder} :
    ∀ f ∈ (matchLevel p qty os).1,
      f.maker_price = p ∧ f.maker_order_id ∈ os.map (fun o => o.order_id) := by
  induction os generalizing qty with
  | nil => intro f hf; simp [matchLevel] at hf
  | cons o rest ih =>
    intro f hf
    simp only [matchLevel] at hf
    split_ifs at hf with h1 h2 h3
    · simp at hf
    · obtain ⟨hp, hm⟩ := ih f hf
      exact ⟨hp, by simp only [List.map_cons, List.mem_cons]; exact Or.inr hm⟩
    · simp only [List.mem_cons] at hf
      rcases hf with rfl | hf
      · exact ⟨rfl, by simp⟩
      · obtain ⟨hp, hm⟩ := ih f hf
        exact ⟨hp, by simp only [List.map_cons, List.mem_cons]; exact Or.inr hm⟩
    · simp only [List.mem_singleton] at hf
      subst hf
      exact ⟨rfl, by simp⟩

theorem matchLevel_fills_pos {p : Int} {qty : Int} {os : List RestingOrder} :
    ∀ f ∈ (matchLevel p qty os).1, 0 < f.qty := by
  induction os generalizing qty with
  | nil => intro f hf; simp [matchLevel] at hf
  | cons o rest ih =>
    intro f hf
    simp only [matchLevel] at hf
    split_ifs at hf with h1 h2 h3
    · simp at hf
    · exact ih f hf
    · simp only [List.mem_cons] at hf
      rcases hf with rfl | hf
      · exact lt_min (by omega) (by omega)
      · exact ih f hf
    · simp only [List.mem_singleton] at hf
      subst hf
      exact lt_min (by omega) (by omega)

theorem matchLevel_conservation {p : Int} {qty : Int} {os : List RestingOrder} :
    fillsQtySum (matchLevel p qty os).1 + (matchLevel p qty os).2.1 = qty := by
  induction os generalizing qty with
  | nil => simp [matchLevel, fillsQtySum]
  | cons o rest ih =>
    simp only [matchLevel]
    split_ifs with h1 h2 h3
    · simp [fillsQtySum]
    · exact ih
    · have := @ih (qty - min qty o.remaining)
      simp only [fillsQtySum, List.map_cons, List.sum_cons] at this ⊢
      omega
    · simp [fillsQtySum]

theorem matchLevel_rem_nonneg {p : Int} {qty : Int} {os : List RestingOrder}
    (h : 0 ≤ qty) : 0 ≤ (matchLevel p qty os).2.1 := by
  induction os generalizing qty with
  | nil => simpa [matchLevel]
  | cons o rest ih =>
    simp only [matchLevel]
    split_ifs with h1 h2 h3
    · simpa
    · exact ih h
    · exact ih (by have := min_le_left qty o.remaining; omega)
    · have := min_le_left qty o.remaining
      dsimp only
      omega

theorem matchLevel_rem_pos_empty {p : Int} {qty : Int} {os : List RestingOrder}
    (h : 0 < (matchLevel p qty os).2.1) : (matchLevel p qty os).2.2.1 = [] := by
  induction os generalizing qty with
  | nil => simp [matchLevel]
  | cons o rest ih =>
    simp only [matchLevel] at h ⊢
    split_ifs at h ⊢ with h1 h2 h3
    · dsimp only at h; omega
    · exact ih h
    · exact ih h
    · exfalso
      dsimp only at h
      rcases min_cases qty o.remaining with ⟨hm, _⟩ | ⟨hm, hlt⟩ <;> omega

theorem matchLevel_fifo {p : Int} {qty : Int} {os : List RestingOrder}
    (hpos : ∀ o ∈ os, 0 < o.remaining) :
    ∃ suf, fillIds (matchLevel p qty os).1 ++ suf = os.map (fun o => o.order_id) := by
  induction os generalizing qty with
  | nil => exact ⟨[], by simp [matchLevel, fillIds]⟩
  | cons o rest ih =>
    simp only [matchLevel]
    split_ifs with h1 h2 h3
    · exact ⟨(o :: rest).map (fun o => o.order_id), by simp [fillIds]⟩
    · exact absurd (hpos o (List.mem_cons_self _ _)) (by omega)
    · obtain ⟨suf, hsuf⟩ := @ih (qty - min qty o.remaining)
        (fun o ho => hpos o (List.mem_cons_of_mem _ ho))
      refine ⟨suf, ?_⟩
      simp only [fillIds] at hsuf ⊢
      simp [hsuf]
    · exact ⟨rest.map (fun o => o.order_id), by simp [fillIds]⟩

theorem matchLevel_maker {p : Int} {qty : Int} {os : List RestingOrder}
    (hpos : ∀ o ∈ os, 0 < o.remaining) (id : String) :
    fillsQtyTo id (matchLevel p qty os).1 + remOfOrders id (matchLevel p qty os).2.2.1
      = remOfOrders id os := by
  induction os generalizing qty with
  | nil => simp [matchLevel, fillsQtyTo, fillsQtySum, remOfOrders]
  | cons o rest ih =>
    simp only [matchLevel]
    split_ifs with h1 h2 h3
    · simp [fillsQtyTo, fillsQtySum]
    · exact absurd (hpos o (List.mem_cons_self _ _)) (by omega)
    · have hrec := @ih (qty - min qty o.remaining)
        (fun o ho => hpos o (List.mem_cons_of_mem _ ho))
      simp only [fillsQtyTo, fillsQtySum, remOfOrders] at hrec ⊢
      by_cases hid : o.order_id = id
      · simp [List.filter_cons, hid] at hrec ⊢
        omega
      · simp [List.filter_cons, hid] at hrec ⊢
        omega
    · simp only [fillsQtyTo, fillsQtySum, remOfOrders]
      by_cases hid : o.order_id = id
      · simp [List.filter_cons, hid]
        omega
      · simp [List.filter_cons, hid]

theorem matchLevel_ne_nil {p : Int} {qty : Int} {os : List RestingOrder}
    (hq : 0 < qty) (hne : os ≠ []) (hpos : ∀ o ∈ os, 0 < o.remaining) :
    (matchLevel p qty os).1 ≠ [] := by
  cases os with
  | nil => exact absurd rfl hne
  | cons o rest =>
    have hop : 0 < o.remaining := hpos o (List.mem_cons_self _ _)
    simp only [matchLevel]
    split_ifs with h1 h2 h3
    · omega
    · omega
    · simp
    · simp

/-! ## Facts about the outer matching loop (`matchSide`) -/

/-- Inversion of one step of `matchSide` on a non-empty ladder. -/
theorem matchSide_cons_ok {crosses : Int → Bool} {levels : List (Int × PriceLevel)}
    {index : List (String × (Side × Int))} {qty : Int} {p : Int} {rest : List Int}
    {r : MatchResult}
    (h : matchSide crosses levels index qty (p :: rest) = .ok r) :
    (qty ≤ 0 ∧ r = ⟨[], qty, levels, p :: rest, index⟩) ∨
    (¬ qty ≤ 0 ∧ ¬ crosses p ∧ r = ⟨[], qty, levels, p :: rest, index⟩) ∨
    (¬ qty ≤ 0 ∧ crosses p ∧ ∃ lvl, dictGet p levels = some lvl ∧
      (((matchLevel p qty lvl.orders).2.2.1 = [] ∧ ∃ r2,
          matchSide crosses (dictDel p levels)
            ((matchLevel p qty lvl.orders).2.2.2.foldl (fun ix i => dictDel i ix) index)
            (matchLevel p qty lvl.orders).2.1 rest = .ok r2 ∧
          r = ⟨(matchLevel p qty lvl.orders).1 ++ r2.fills, r2.remaining, r2.levels,
               r2.ladder, r2.index⟩) ∨
        ((matchLevel p qty lvl.orders).2.2.1 ≠ [] ∧
          r = ⟨(matchLevel p qty lvl.orders).1, (matchLevel p qty lvl.orders).2.1,
               dictSet p { lvl with orders := (matchLevel p qty lvl.orders).2.2.1 } levels,
               p :: rest,
               (matchLevel p qty lvl.orders).2.2.2.foldl (fun ix i => dictDel i ix) index⟩))) := by
  simp only [matchSide] at h
  split_ifs at h with h1 h2
  · exact Or.inl ⟨h1, by simpa using h.symm⟩
  · refine Or.inr (Or.inr ⟨h1, by simpa using h2, ?_⟩)
    cases hlv : dictGet p levels with
    | none => rw [hlv] at h; simp at h
    | some lvl =>
      rw [hlv] at h
      dsimp only at h
      refine ⟨lvl, rfl, ?_⟩
      by_cases hemp : (matchLevel p qty lvl.orders).2.2.1.isEmpty
      · rw [if_pos hemp] at h
        cases hrec : matchSide crosses (dictDel p levels)
            ((matchLevel p qty lvl.orders).2.2.2.foldl (fun ix i => dictDel i ix) index)
            (matchLevel p qty lvl.orders).2.1 rest with
        | error e => rw [hrec] at h; simp [Bind.bind, Except.bind] at h
        | ok r2 =>
          rw [hrec] at h
          simp only [Bind.bind, Except.bind, Except.ok.injEq] at h
          exact Or.inl ⟨List.isEmpty_iff.mp hemp, r2, rfl, h.symm⟩
      · rw [if_neg hemp] at h
        simp only [Except.ok.injEq] at h
        exact Or.inr ⟨fun hx => hemp (by simp [hx]), h.symm⟩
  · exact Or.inr (Or.inl ⟨h1, by simpa using h2, by simpa using h.symm⟩)

/-- The remaining ladder is a suffix of the input ladder. -/
theorem matchSide_ladder_suffix {crosses : Int → Bool} {levels : List (Int × PriceLevel)}
    {index : List (String × (Side × Int))} {qty : Int} {ladder : List Int} {r : MatchResult}
    (h : matchSide crosses levels index qty ladder = .ok r) :
    ∃ pre, ladder = pre ++ r.ladder := by
  induction ladder generalizing levels index qty r with
  | nil =>
    simp only [matchSide, Except.ok.injEq] at h
    exact ⟨[], by simp [← h]⟩
  | cons p rest ih =>
    rcases matchSide_cons_ok h with ⟨h1, rfl⟩ | ⟨h1, h2, rfl⟩ | ⟨h1, h2, lvl, hlv, hcase⟩
    · exact ⟨[], rfl⟩
    · exact ⟨[], rfl⟩
    · rcases hcase with ⟨hemp, r2, hrec, rfl⟩ | ⟨hne, rfl⟩
      · obtain ⟨pre, hpre⟩ := ih hrec
        exact ⟨p :: pre, by simp [hpre]⟩
      · exact ⟨[], rfl⟩

/-- Remaining taker quantity is nonnegative when the input is. -/
theorem matchSide_rem_nonneg {crosses : Int → Bool} {levels : List (Int × PriceLevel)}
    {index : List (String × (Side × Int))} {qty : Int} {ladder : List Int} {r : MatchResult}
    (h : matchSide crosses levels index qty ladder = .ok r) (hq : 0 ≤ qty) :
    0 ≤ r.remaining := by
  induction ladder generalizing levels index qty r with
  | nil =>
    simp only [matchSide, Except.ok.injEq] at h
    simpa [← h] using hq
  | cons p rest ih =>
    rcases matchSide_cons_ok h with ⟨h1, rfl⟩ | ⟨h1, h2, rfl⟩ | ⟨h1, h2, lvl, hlv, hcase⟩
    · exact hq
    · exact hq
    · rcases hcase with ⟨hemp, r2, hrec, rfl⟩ | ⟨hne, rfl⟩
      · dsimp only
        exact ih hrec (matchLevel_rem_nonneg hq)
      · exact matchLevel_rem_nonneg hq

/-- If the taker is not exhausted, the loop stopped because the ladder ran
out or the next best opposite price no longer crosses. -/
theorem matchSide_stop {crosses : Int → Bool} {levels : List (Int × PriceLevel)}
    {index : List (String × (Side × Int))} {qty : Int} {ladder : List Int} {r : MatchResult}
    (h : matchSide crosses levels index qty ladder = .ok r) (hrem : 0 < r.remaining) :
    r.ladder = [] ∨ ∃ p t, r.ladder = p :: t ∧ crosses p = false := by
  induction ladder generalizing levels index qty r with
  | nil =>
    simp only [matchSide, Except.ok.injEq] at h
    exact Or.inl (by simp [← h])
  | cons p rest ih =>
    rcases matchSide_cons_ok h with ⟨h1, rfl⟩ | ⟨h1, h2, rfl⟩ | ⟨h1, h2, lvl, hlv, hcase⟩
    · exact absurd hrem (by simpa using h1)
    · exact Or.inr ⟨p, rest, rfl, by simpa using h2⟩
    · rcases hcase with ⟨hemp, r2, hrec, rfl⟩ | ⟨hne, rfl⟩
      · dsimp only at hrem ⊢
        exact ih hrec hrem
      · exact absurd (matchLevel_rem_pos_empty hrem) hne

/-- Taker-side conservation: filled quantity plus remaining equals input. -/
theorem matchSide_conservation {crosses : Int → Bool} {levels : List (Int × PriceLevel)}
    {index : List (String × (Side × Int))} {qty : Int} {ladder : List Int} {r : MatchResult}
    (h : matchSide crosses levels index qty ladder = .ok r) :
    fillsQtySum r.fills + r.remaining = qty := by
  induction ladder generalizing levels index qty r with
  | nil =>
    simp only [matchSide, Except.ok.injEq] at h
    simp [← h, fillsQtySum]
  | cons p rest ih =>
    rcases matchSide_cons_ok h with ⟨h1, rfl⟩ | ⟨h1, h2, rfl⟩ | ⟨h1, h2, lvl, hlv, hcase⟩
    · simp [fillsQtySum]
    · simp [fillsQtySum]
    · rcases hcase with ⟨hemp, r2, hrec, rfl⟩ | ⟨hne, rfl⟩
      · have hl := @matchLevel_conservation p qty lvl.orders
        have hr := ih hrec
        simp only [fillsQtySum, List.map_append, List.sum_append] at hl hr ⊢
        omega
      · exact matchLevel_conservation

/-- Every fill has a strictly positive quantity. -/
theorem matchSide_fills_pos {crosses : Int → Bool} {levels : List (Int × PriceLevel)}
    {index : List (String × (Side × Int))} {qty : Int} {ladder : List Int} {r : MatchResult}
    (h : matchSide crosses levels index qty ladder = .ok r) :
    ∀ f ∈ r.fills, 0 < f.qty := by
  induction ladder generalizing levels index qty r with
  | nil =>
    simp only [matchSide, Except.ok.injEq] at h
    simp [← h]
  | cons p rest ih =>
    rcases matchSide_cons_ok h with ⟨h1, rfl⟩ | ⟨h1, h2, rfl⟩ | ⟨h1, h2, lvl, hlv, hcase⟩
    · simp
    · simp
    · rcases hcase with ⟨hemp, r2, hrec, rfl⟩ | ⟨hne, rfl⟩
      · intro f hf
        rcases List.mem_append.mp hf with hf | hf
        · exact matchLevel_fills_pos f hf
        · exact ih hrec f hf
      · exact fun f hf => matchLevel_fills_pos f hf

/-- Every fill's price is one of the ladder prices. -/
theorem matchSide_fills_price_mem {crosses : Int → Bool} {levels : List (Int × PriceLevel)}
    {index : List (String × (Side × Int))} {qty : Int} {ladder : List Int} {r : MatchResult}
    (h : matchSide crosses levels index qty ladder = .ok r) :
    ∀ f ∈ r.fills, f.maker_price ∈ ladder := by
  induction ladder generalizing levels index qty r with
  | nil =>
    simp only [matchSide, Except.ok.injEq] at h
    simp [← h]
  | cons p rest ih =>
    rcases matchSide_cons_ok h with ⟨h1, rfl⟩ | ⟨h1, h2, rfl⟩ | ⟨h1, h2, lvl, hlv, hcase⟩
    · simp
    · simp
    · rcases hcase with ⟨hemp, r2, hrec, rfl⟩ | ⟨hne, rfl⟩
      · intro f hf
        rcases List.mem_append.mp hf with hf | hf
        · exact (matchLevel_fills_mem f hf).1 ▸ List.mem_cons_self _ _
        · exact List.mem_cons_of_mem _ (ih hrec f hf)
      · intro f hf
        exact (matchLevel_fills_mem f hf).1 ▸ List.mem_cons_self _ _

/-- Every fill comes from a maker resting in the entered level of its price. -/
theorem matchSide_fills_src {crosses : Int → Bool} {levels : List (Int × PriceLevel)}
    {index : List (String × (Side × Int))} {qty : Int} {ladder : List Int} {r : MatchResult}
    (h : matchSide crosses levels index qty ladder = .ok r) (hnd : ladder.Nodup) :
    ∀ f ∈ r.fills, ∃ lvl, dictGet f.maker_price levels = some lvl ∧
      f.maker_order_id ∈ lvl.orders.map (fun o => o.order_id) := by
  induction ladder generalizing levels index qty r with
  | nil =>
    simp only [matchSide, Except.ok.injEq] at h
    simp [← h]
  | cons p rest ih =>
    rcases matchSide_cons_ok h with ⟨h1, rfl⟩ | ⟨h1, h2, rfl⟩ | ⟨h1, h2, lvl, hlv, hcase⟩
    · simp
    · simp
    · rcases hcase with ⟨hemp, r2, hrec, rfl⟩ | ⟨hne, rfl⟩
      · intro f hf
        rcases List.mem_append.mp hf with hf | hf
        · obtain ⟨hp, hm⟩ := matchLevel_fills_mem f hf
          exact ⟨lvl, hp ▸ hlv, hm⟩
        · obtain ⟨lvl', hlv', hm'⟩ := ih hrec (List.Nodup.of_cons hnd) f hf
          have hne : f.maker_price ≠ p := by
            intro hx
            have := matchSide_fills_price_mem hrec f hf
            exact (List.nodup_cons.mp hnd).1 (hx ▸ this)
          exact ⟨lvl', (dictGet_dictDel_ne hne levels) ▸ hlv', hm'⟩
      · intro f hf
        obtain ⟨hp, hm⟩ := matchLevel_fills_mem f hf
        exact ⟨lvl, hp ▸ hlv, hm⟩

theorem pairwise_of_all_eq {R : Int → Int → Prop} {p : Int} :
    ∀ {l : List Int}, (∀ x ∈ l, x = p) → R p p → l.Pairwise R
  | [], _, _ => List.Pairwise.nil
  | x :: xs, hall, hp => by
    have hx := hall x (List.mem_cons_self _ _)
    subst hx
    refine List.Pairwise.cons ?_ (pairwise_of_all_eq (fun y hy => hall y (List.mem_cons_of_mem _ hy)) hp)
    intro y hy
    have := hall y (List.mem_cons_of_mem _ hy)
    subst this
    exact hp

theorem fillsAt_all {p : Int} {fills : List Fill}
    (h : ∀ f ∈ fills, f.maker_price = p) : fillsAt p fills = fills := by
  unfold fillsAt
  exact List.filter_eq_self.mpr (fun f hf => by simp [h f hf])

theorem fillsAt_none {p : Int} {fills : List Fill}
    (h : ∀ f ∈ fills, f.maker_price ≠ p) : fillsAt p fills = [] := by
  unfold fillsAt
  exact List.filter_eq_nil_iff.mpr (fun f hf => by simp [h f hf])

theorem fillsQtyTo_append {id : String} {a b : List Fill} :
    fillsQtyTo id (a ++ b) = fillsQtyTo id a + fillsQtyTo id b := by
  simp [fillsQtyTo, fillsQtySum, List.filter_append]

theorem remOfOrders_nil {id : String} : remOfOrders id [] = 0 := rfl

theorem remInLevels_dictDel {id : String} {k : Int} {v : PriceLevel} :
    ∀ {d : List (Int × PriceLevel)}, dictGet k d = some v →
      remInLevels id (dictDel k d) + remOfOrders id v.orders = remInLevels id d
  | [], h => by simp [dictGet] at h
  | (k', v') :: rest, h => by
    by_cases hk : k' = k
    · subst hk
      simp [dictGet] at h
      subst h
      simp [dictDel, remInLevels]
      ring
    · simp only [dictGet, if_neg hk] at h
      have := @remInLevels_dictDel id k v rest h
      simp only [dictDel, if_neg hk, remInLevels, List.map_cons, List.sum_cons] at this ⊢
      omega

theorem remInLevels_dictSet {id : String} {k : Int} {v w : PriceLevel} :
    ∀ {d : List (Int × PriceLevel)}, dictGet k d = some v →
      remInLevels id (dictSet k w d) + remOfOrders id v.orders
        = remInLevels id d + remOfOrders id w.orders
  | [], h => by simp [dictGet] at h
  | (k', v') :: rest, h => by
    by_cases hk : k' = k
    · subst hk
      simp [dictGet] at h
      subst h
      simp [dictSet, remInLevels]
      ring
    · simp only [dictGet, if_neg hk] at h
      have := @remInLevels_dictSet id k v w rest h
      simp only [dictSet, if_neg hk, remInLevels, List.map_cons, List.sum_cons] at this ⊢
      omega

/-- Fill prices respect the ladder order: with the ladder pairwise `R`
(best-first), the fill price sequence is pairwise `R`. -/
theorem matchSide_fills_pairwise {crosses : Int → Bool} {levels : List (Int × PriceLevel)}
    {index : List (String × (Side × Int))} {qty : Int} {ladder : List Int} {r : MatchResult}
    {R : Int → Int → Prop}
    (h : matchSide crosses levels index qty ladder = .ok r) (hlad : ladder.Pairwise R)
    (hrefl : ∀ a, R a a) :
    (r.fills.map (fun f => f.maker_price)).Pairwise R := by
  induction ladder generalizing levels index qty r with
  | nil =>
    simp only [matchSide, Except.ok.injEq] at h
    simp [← h]
  | cons p rest ih =>
    rcases matchSide_cons_ok h with ⟨h1, rfl⟩ | ⟨h1, h2, rfl⟩ | ⟨h1, h2, lvl, hlv, hcase⟩
    · simp
    · simp
    · have hallp : ∀ f ∈ (matchLevel p qty lvl.orders).1, f.maker_price = p :=
        fun f hf => (matchLevel_fills_mem f hf).1
      rcases hcase with ⟨hemp, r2, hrec, rfl⟩ | ⟨hne, rfl⟩
      · dsimp only
        rw [List.map_append, List.pairwise_append]
        refine ⟨pairwise_of_all_eq (by simpa using hallp) (hrefl p),
          ih hrec (List.Pairwise.of_cons hlad), ?_⟩
        intro x hx y hy
        obtain ⟨fx, hfx, rfl⟩ := List.mem_map.mp hx
        obtain ⟨fy, hfy, rfl⟩ := List.mem_map.mp hy
        rw [hallp fx hfx]
        have hmem := matchSide_fills_price_mem hrec fy hfy
        exact (List.pairwise_cons.mp hlad).1 _ hmem
      · dsimp only
        exact pairwise_of_all_eq (by simpa using hallp) (hrefl p)

/-- A non-empty fill list starts at the head of the (best-first) ladder:
the first consumed level is the best opposite price. -/
theorem matchSide_head (side : Side) {crosses : Int → Bool} {levels : List (Int × PriceLevel)}
    {index : List (String × (Side × Int))} {qty : Int} {ladder : List Int} {r : MatchResult}
    (hWF : ∀ e ∈ levels, LevelWF side e)
    (h : matchSide crosses levels index qty ladder = .ok r) (hne : r.fills ≠ []) :
    (r.fills.map (fun f => f.maker_price)).head? = ladder.head? := by
  cases ladder with
  | nil =>
    simp only [matchSide, Except.ok.injEq] at h
    exact absurd (by simp [← h]) hne
  | cons p rest =>
    rcases matchSide_cons_ok h with ⟨h1, rfl⟩ | ⟨h1, h2, rfl⟩ | ⟨h1, h2, lvl, hlv, hcase⟩
    · exact absurd rfl hne
    · exact absurd rfl hne
    · have hwfl := hWF (p, lvl) (dictGet_mem hlv)
      have hfp : (matchLevel p qty lvl.orders).1 ≠ [] :=
        matchLevel_ne_nil (by omega) hwfl.1 (fun o ho => ((hwfl.2 o ho).2).2)
      rcases hcase with ⟨hemp, r2, hrec, rfl⟩ | ⟨hne2, rfl⟩
      · dsimp only
        cases hml : (matchLevel p qty lvl.orders).1 with
        | nil => exact absurd hml hfp
        | cons f fs =>
          have : f.maker_price = p :=
            (matchLevel_fills_mem f (by rw [hml]; exact List.mem_cons_self _ _)).1
          simp [hml, this]
      · dsimp only
        cases hml : (matchLevel p qty lvl.orders).1 with
        | nil => exact absurd hml hfp
        | cons f fs =>
          have : f.maker_price = p :=
            (matchLevel_fills_mem f (by rw [hml]; exact List.mem_cons_self _ _)).1
          simp [hml, this]

/-- FIFO: the makers filled at any price `p0` are an initial segment, in
order, of the maker queue that was resting at price `p0`. -/
theorem matchSide_fifo {crosses : Int → Bool} {levels : List (Int × PriceLevel)}
    {index : List (String × (Side × Int))} {qty : Int} {ladder : List Int} {r : MatchResult}
    (h : matchSide crosses levels index qty ladder = .ok r) (hnd : ladder.Nodup)
    (hpos : ∀ e ∈ levels, ∀ o ∈ e.2.orders, 0 < o.remaining) (p0 : Int) :
    ∃ suf, fillIds (fillsAt p0 r.fills) ++ suf = levelIdsAt levels p0 := by
  induction ladder generalizing levels index qty r with
  | nil =>
    simp only [matchSide, Except.ok.injEq] at h
    exact ⟨levelIdsAt levels p0, by simp [← h, fillsAt, fillIds]⟩
  | cons p rest ih =>
    rcases matchSide_cons_ok h with ⟨h1, rfl⟩ | ⟨h1, h2, rfl⟩ | ⟨h1, h2, lvl, hlv, hcase⟩
    · exact ⟨levelIdsAt levels p0, by simp [fillsAt, fillIds]⟩
    · exact ⟨levelIdsAt levels p0, by simp [fillsAt, fillIds]⟩
    · have hallp : ∀ f ∈ (matchLevel p qty lvl.orders).1, f.maker_price = p :=
        fun f hf => (matchLevel_fills_mem f hf).1
      have hposl : ∀ o ∈ lvl.orders, 0 < o.remaining :=
        hpos (p, lvl) (dictGet_mem hlv)
      rcases hcase with ⟨hemp, r2, hrec, rfl⟩ | ⟨hne, rfl⟩
      · dsimp only
        rw [show fillsAt p0 ((matchLevel p qty lvl.orders).1 ++ r2.fills)
            = fillsAt p0 (matchLevel p qty lvl.orders).1 ++ fillsAt p0 r2.fills from
            List.filter_append _ _]
        by_cases hp : p0 = p
        · subst hp
          have hz : fillsAt p0 r2.fills = [] := by
            refine fillsAt_none (fun f hf hx => ?_)
            have := matchSide_fills_price_mem hrec f hf
            exact (List.nodup_cons.mp hnd).1 (hx ▸ this)
          obtain ⟨suf, hsuf⟩ := @matchLevel_fifo p0 qty lvl.orders hposl
          refine ⟨suf, ?_⟩
          rw [fillsAt_all hallp, hz, List.append_nil, hsuf]
          simp [levelIdsAt, hlv]
        · have hz : fillsAt p0 (matchLevel p qty lvl.orders).1 = [] :=
            fillsAt_none (fun f hf hx => hp (hx ▸ hallp f hf))
          obtain ⟨suf, hsuf⟩ := ih hrec (List.Nodup.of_cons hnd)
            (fun e he => hpos e (mem_dictDel he))
          refine ⟨suf, ?_⟩
          rw [hz, List.nil_append, hsuf]
          simp [levelIdsAt, dictGet_dictDel_ne hp]
      · dsimp only
        by_cases hp : p0 = p
        · subst hp
          obtain ⟨suf, hsuf⟩ := @matchLevel_fifo p0 qty lvl.orders hposl
          refine ⟨suf, ?_⟩
          rw [fillsAt_all hallp, hsuf]
          simp [levelIdsAt, hlv]
        · have hz : fillsAt p0 (matchLevel p qty lvl.orders).1 = [] :=
            fillsAt_none (fun f hf hx => hp (hx ▸ hallp f hf))
          exact ⟨levelIdsAt levels p0, by rw [hz]; simp [fillIds]⟩

/-- Maker-side conservation: for every id, what was filled against it plus
what remains at its levels equals what was resting before. -/
theorem matchSide_maker {crosses : Int → Bool} {levels : List (Int × PriceLevel)}
    {index : List (String × (Side × Int))} {qty : Int} {ladder : List Int} {r : MatchResult}
    (h : matchSide crosses levels index qty ladder = .ok r)
    (hpos : ∀ e ∈ levels, ∀ o ∈ e.2.orders, 0 < o.remaining) (id : String) :
    fillsQtyTo id r.fills + remInLevels id r.levels = remInLevels id levels := by
  induction ladder generalizing levels index qty r with
  | nil =>
    simp only [matchSide, Except.ok.injEq] at h
    simp [← h, fillsQtyTo, fillsQtySum]
  | cons p rest ih =>
    rcases matchSide_cons_ok h with ⟨h1, rfl⟩ | ⟨h1, h2, rfl⟩ | ⟨h1, h2, lvl, hlv, hcase⟩
    · simp [fillsQtyTo, fillsQtySum]
    · simp [fillsQtyTo, fillsQtySum]
    · have hposl : ∀ o ∈ lvl.orders, 0 < o.remaining :=
        hpos (p, lvl) (dictGet_mem hlv)
      have hml := @matchLevel_maker p qty lvl.orders hposl id
      rcases hcase with ⟨hemp, r2, hrec, rfl⟩ | ⟨hne, rfl⟩
      · dsimp only
        rw [fillsQtyTo_append]
        have hih := ih hrec (fun e he => hpos e (mem_dictDel he))
        have hdel := @remInLevels_dictDel id p lvl levels hlv
        rw [hemp] at hml
        simp only [remOfOrders_nil] at hml
        omega
      · dsimp only
        have hset := @remInLevels_dictSet id p lvl
          { lvl with orders := (matchLevel p qty lvl.orders).2.2.1 } levels hlv
        dsimp only at hset
        omega

/-! ## Concrete scenario inputs -/

/-- A book with a single resting ask `a1: 2@100` (the setup of spec S4). -/
def iocBook : OrderBook := (OrderBook.empty "BTC-USD")._rest ⟨"a1", "BTC-USD", .SELL, 100, 2⟩

/-- The IOC taker of spec S4: `BUY ioc1 5@100`. -/
def iocTaker : RestingOrder := ⟨"ioc1", "BTC-USD", .BUY, 100, 5⟩

/-- A book whose `orders_by_id` names an order at a bid level that does not
exist (the desynchronization case of `OrderBook.cancel`). -/
def desyncBook : OrderBook :=
  { OrderBook.empty "I" with orders_by_id := [("x", (Side.BUY, 100))] }

/-- C2 (code_bug): on the S4 scenario the engine's accepted-path raises
`TypeError` (it calls `place_limit` with a `rest` keyword the book does not
accept, and `OrderExpired` has no `reason` field to carry `"IOC"`), and the
book's own `place_limit` — which has no `rest` parameter — unconditionally
rests the IOC remainder: after the 2-lot fill the 3 unfilled lots rest as a
bid and `best_bid` becomes `100`, contradicting the claimed
`OrderExpired{qty=remaining, reason="IOC"}` with no resting remainder. -/
theorem c2_ioc_remainder_rests_and_engine_raises :
    ((iocBook.place_limit iocTaker).map (fun t =>
        (t.1, t.2.1, t.2.2.best_bid, dictGet "ioc1" t.2.2.orders_by_id))
      = .ok ([⟨"a1", 100, 2⟩], 3, some 100, some (Side.BUY, 100)))
    ∧ (EngineModel.init "BTC-USD").handlePlaceLimit 0 123 "alice" "ioc1" .BUY 100 5
        .IOC false "BTC-USD" = .error placeLimitKeywordError :=
  ⟨rfl, rfl⟩

/-- C3 (code_bug): `Engine.handle(PlaceLimit)` contains no FOK probe at all.
On the S5 scenario (an FOK buy of 4 lots against an empty book, so the
order is certainly not fillable) the handler accepts the order and then
raises `TypeError` at the `place_limit(..., rest=...)` call; it never
returns the claimed single `OrderRejected{"FOK not fillable"}` (that reason
string appears nowhere in the engine). -/
theorem c3_no_fok_rejection :
    (EngineModel.init "BTC-USD").handlePlaceLimit 0 123 "alice" "fok1" .BUY 100 4
        .FOK false "BTC-USD" = .error placeLimitKeywordError
    ∧ ∀ out, (EngineModel.init "BTC-USD").handlePlaceLimit 0 123 "alice" "fok1" .BUY 100 4
        .FOK false "BTC-USD" ≠ .ok out :=
  ⟨rfl, fun _ h => by simp [EngineModel.handlePlaceLimit, dictHas, dictGet,
    EngineState.init, EngineModel.init] at h⟩

/-- C4 (code_bug): `OrderBook.apply_event` raises
`ValueError("Event type ... not implemented")` for every event except
`OrderRested` — the source carries only the comment
`# handle TradeOccurred and OrderCanceled`.  Consequently
`Engine.replay(..., rebuild_book=True)` fails on any captured stream that
contains an `OrderAccepted` (i.e. on every stream an engine actually
emits), while the same replay with `rebuild_book=False` succeeds. -/
theorem c4_replay_rebuild_book_raises :
    EngineModel.replay "BTC-USD" [.orderAccepted 1 123 "BTC-USD" "m1" .SELL 100 5] true
      = .error "Event type OrderAccepted not implemented"
    ∧ (OrderBook.empty "I").apply_event (.tradeOccurred 1 2 "I" "t" "m" 100 1)
      = .error "Event type TradeOccurred not implemented"
    ∧ (OrderBook.empty "I").apply_event (.orderCanceled 1 2 "I" "m")
      = .error "Event type OrderCanceled not implemented"
    ∧ ∃ eng, EngineModel.replay "BTC-USD"
        [.orderAccepted 1 123 "BTC-USD" "m1" .SELL 100 5] false = .ok eng :=
  ⟨rfl, rfl, rfl, _, rfl⟩

/-- C7 (code_bug): the `FundsCredited` handler in `state.py` *assigns*
`accounts[acct][asset] = amount` instead of incrementing, and resets the
held entry to 0.  Crediting alice 100 then 50 USD leaves `available = 50`,
not the claimed `150`. -/
theorem c7_credit_overwrites_instead_of_adding :
    (applyAllE EngineState.init
        [.fundsCredited 1 0 "I" "alice" "USD" 100,
         .fundsCredited 2 0 "I" "alice" "USD" 50]).map
      (fun st => st.available "alice" "USD") = .ok (some 50) :=
  rfl

/-- C8 counterexample: with an `orders_by_id` entry pointing at a missing
bid level, `OrderBook.cancel` returns `False` (no exception), leaving the
book unchanged — it does not fail fatally as the claim states. -/
theorem c8_desync_cancel_returns_false :
    desyncBook.cancel "x" = .ok (false, desyncBook) :=
  rfl

/-! ## C9: never-credited balances raise KeyError -/

/-- Whether an event is a `FundsCredited` targeting `(a, s)`. -/
def Event.creditsTo (a s : String) : Event → Bool
  | .fundsCredited _ _ _ account_id asset _ => account_id = a ∧ asset = s
  | _ => false

theorem c9_step {a s : String} {st st' : EngineState} {e : Event}
    (hne : Event.creditsTo a s e = false)
    (hav : st.available a s = none) (hhe : st.held a s = none)
    (happ : st.apply e = .ok st') :
    st'.available a s = none ∧ st'.held a s = none := by
  have havx := hav
  have hhex := hhe
  simp only [EngineState.available, EngineState.held] at havx hhex
  cases e with
  | orderAccepted seq ts i oid side price qty =>
    simp only [EngineState.apply, Except.ok.injEq] at happ
    subst happ
    exact ⟨hav, hhe⟩
  | orderRejected seq ts i oid reason =>
    simp only [EngineState.apply, Except.ok.injEq] at happ
    subst happ
    exact ⟨hav, hhe⟩
  | orderCanceled seq ts i oid =>
    simp only [EngineState.apply] at happ
    revert happ
    cases dictGet oid st.orders <;> intro happ <;>
      simp only [Except.ok.injEq] at happ <;> subst happ <;> exact ⟨hav, hhe⟩
  | tradeOccurred seq ts i tid mid price qty =>
    simp only [EngineState.apply] at happ
    split at happ
    · simp only [Except.ok.injEq] at happ
      subst happ
      exact ⟨hav, hhe⟩
    · split at happ <;> simp only [Except.ok.injEq] at happ <;> subst happ <;> exact ⟨hav, hhe⟩
  | orderExpired seq ts i oid qty =>
    simp only [EngineState.apply] at happ
    revert happ
    cases dictGet oid st.orders <;> intro happ <;>
      simp only [Except.ok.injEq] at happ <;> subst happ <;> exact ⟨hav, hhe⟩
  | topOfBookChanged seq ts i bb ba =>
    simp only [EngineState.apply, Except.ok.injEq] at happ
    subst happ
    exact ⟨hav, hhe⟩
  | orderRested seq ts i oid side price qty =>
    simp only [EngineState.apply, Except.ok.injEq] at happ
    subst happ
    exact ⟨hav, hhe⟩
  | fundsCredited seq ts i acct asset amt =>
    simp only [EngineState.apply, Except.ok.injEq] at happ
    subst happ
    simp only [Event.creditsTo, Bool.decide_and, Bool.and_eq_false_iff,
      decide_eq_false_iff_not] at hne
    constructor
    · simp only [EngineState.available]
      by_cases hacct : acct = a
      · subst hacct
        rw [dictGet_dictSet_self]
        simp only [Option.some_bind]
        have hsne : asset ≠ s := by
          rcases hne with h | h
          · exact absurd rfl h
          · exact h
        rw [dictGet_dictSet_ne _ (Ne.symm hsne)]
        cases hga : dictGet acct st.accounts with
        | none => simp [hga, dictGet]
        | some inner => rw [hga] at havx; simpa [hga] using havx
      · rw [dictGet_dictSet_ne _ (Ne.symm hacct)]
        exact havx
    · simp only [EngineState.held]
      by_cases hacct : acct = a
      · subst hacct
        rw [dictGet_dictSet_self]
        simp only [Option.some_bind]
        have hsne : asset ≠ s := by
          rcases hne with h | h
          · exact absurd rfl h
          · exact h
        rw [dictGet_dictSet_ne _ (Ne.symm hsne)]
        cases hga : dictGet acct st.accounts_held with
        | none => simp [hga, dictGet]
        | some inner => rw [hga] at hhex; simpa [hga] using hhex
      · rw [dictGet_dictSet_ne _ (Ne.symm hacct)]
        exact hhex
  | fundsReserved seq ts i acct asset amt =>
    simp only [EngineState.apply] at happ
    revert happ
    cases hga : dictGet acct st.accounts with
    | none => intro happ; simp at happ
    | some inner =>
      dsimp only
      cases hgs : dictGet asset inner with
      | none => intro happ; simp at happ
      | some avail =>
        dsimp only
        intro happ
        split_ifs at happ with hlt
        simp only [Except.ok.injEq] at happ
        subst happ
        have hnotboth : ¬ (acct = a ∧ asset = s) := by
          rintro ⟨rfl, rfl⟩
          rw [hga] at havx
          simp [hgs] at havx
        constructor
        · simp only [EngineState.available]
          by_cases hacct : acct = a
          · subst hacct
            have hsne : asset ≠ s := fun hx => hnotboth ⟨rfl, hx⟩
            rw [dictGet_dictSet_self]
            simp only [Option.some_bind]
            rw [dictGet_dictSet_ne _ (Ne.symm hsne)]
            rw [hga] at havx
            simpa using havx
          · rw [dictGet_dictSet_ne _ (Ne.symm hacct)]
            exact havx
        · simp only [EngineState.held]
          by_cases hacct : acct = a
          · subst hacct
            have hsne : asset ≠ s := fun hx => hnotboth ⟨rfl, hx⟩
            rw [dictGet_dictSet_self]
            simp only [Option.some_bind]
            rw [dictGet_dictSet_ne _ (Ne.symm hsne)]
            cases hgh : dictGet acct st.accounts_held with
            | none => simp [hgh, dictGet]
            | some ih => rw [hgh] at hhex; simpa [hgh] using hhex
          · rw [dictGet_dictSet_ne _ (Ne.symm hacct)]
            exact hhex
  | fundsReleased seq ts i acct asset amt =>
    simp only [EngineState.apply] at happ
    revert happ
    cases hgh : dictGet acct st.accounts_held with
    | none => intro happ; simp at happ
    | some innerHeld =>
      dsimp only
      cases hgsh : dictGet asset innerHeld with
      | none => intro happ; simp at happ
      | some heldVal =>
        dsimp only
        intro happ
        split_ifs at happ with hlt
        revert happ
        cases hga : dictGet acct st.accounts with
        | none => intro happ; simp at happ
        | some inner =>
          dsimp only
          cases hgs : dictGet asset inner with
          | none => intro happ; simp at happ
          | some avail =>
            dsimp only
            intro happ
            simp only [Except.ok.injEq] at happ
            subst happ
            have hnotboth : ¬ (acct = a ∧ asset = s) := by
              rintro ⟨rfl, rfl⟩
              rw [hgh] at hhex
              simp [hgsh] at hhex
            constructor
            · simp only [EngineState.available]
              by_cases hacct : acct = a
              · subst hacct
                have hsne : asset ≠ s := fun hx => hnotboth ⟨rfl, hx⟩
                rw [dictGet_dictSet_self]
                simp only [Option.some_bind]
                rw [dictGet_dictSet_ne _ (Ne.symm hsne)]
                rw [hga] at havx
                simpa using havx
              · rw [dictGet_dictSet_ne _ (Ne.symm hacct)]
                exact havx
            · simp only [EngineState.held]
              by_cases hacct : acct = a
              · subst hacct
                have hsne : asset ≠ s := fun hx => hnotboth ⟨rfl, hx⟩
                rw [dictGet_dictSet_self]
                simp only [Option.some_bind]
                rw [dictGet_dictSet_ne _ (Ne.symm hsne)]
                rw [hgh] at hhex
                simpa using hhex
              · rw [dictGet_dictSet_ne _ (Ne.symm hacct)]
                exact hhex

/-- C9: for an `(account, asset)` pair that is never the target of a
`FundsCredited` event, a successful fold of the event stream leaves no
ledger entry, so `EngineState.available` and `EngineState.held` raise
`KeyError` (modelled as `none`) rather than returning 0. -/
theorem never_credited_available_raises {a s : String} {es : List Event} {st : EngineState}
    (hnc : ∀ e ∈ es, Event.creditsTo a s e = false)
    (hok : applyAllE EngineState.init es = .ok st) :
    st.available a s = none ∧ st.held a s = none := by
  suffices hgen : ∀ (st0 : EngineState), st0.available a s = none → st0.held a s = none →
      ∀ (es' : List Event), (∀ e ∈ es', Event.creditsTo a s e = false) →
      applyAllE st0 es' = .ok st → st.available a s = none ∧ st.held a s = none by
    exact hgen EngineState.init rfl rfl es hnc hok
  intro st0 hav hhe es' hnc' hok'
  induction es' generalizing st0 with
  | nil =>
    simp only [applyAllE, Except.ok.injEq] at hok'
    subst hok'
    exact ⟨hav, hhe⟩
  | cons e rest ih =>
    simp only [applyAllE] at hok'
    cases happ : st0.apply e with
    | error msg => rw [happ] at hok'; simp [Bind.bind, Except.bind] at hok'
    | ok st1 =>
      rw [happ] at hok'
      simp only [Bind.bind, Except.bind] at hok'
      obtain ⟨hav1, hhe1⟩ := c9_step (hnc' e (List.mem_cons_self _ _)) hav hhe happ
      exact ih st1 hav1 hhe1 (fun e' he' => hnc' e' (List.mem_cons_of_mem _ he')) hok'

/-- Witness for C9 at a concrete stream touching other accounts. -/
theorem never_credited_available_raises_witness :
    (∀ e ∈ [Event.fundsCredited 1 0 "I" "bob" "USD" 5,
            Event.fundsCredited 2 0 "I" "alice" "BTC" 7,
            Event.orderAccepted 3 0 "I" "o1" .BUY 10 1],
        Event.creditsTo "alice" "USD" e = false) ∧
    ∃ st, applyAllE EngineState.init
        [Event.fundsCredited 1 0 "I" "bob" "USD" 5,
         Event.fundsCredited 2 0 "I" "alice" "BTC" 7,
         Event.orderAccepted 3 0 "I" "o1" .BUY 10 1] = .ok st ∧
      st.available "alice" "USD" = none ∧ st.held "alice" "USD" = none := by
  refine ⟨by decide, ?_⟩
  have hok : applyAllE EngineState.init
      [Event.fundsCredited 1 0 "I" "bob" "USD" 5,
       Event.fundsCredited 2 0 "I" "alice" "BTC" 7,
       Event.orderAccepted 3 0 "I" "o1" .BUY 10 1] = .ok
    ⟨[("o1", ⟨"I", "o1", .BUY, 10, 1, 1, .ACTIVE⟩)],
     [("bob", [("USD", 5)]), ("alice", [("BTC", 7)])],
     [("bob", [("USD", 0)]), ("alice", [("BTC", 0)])]⟩ := rfl
  exact ⟨_, hok, never_credited_available_raises (by decide) hok⟩

/-! ## C10: unknown-instrument rejection is returned but never recorded -/

/-- C10: a command for an instrument with no engine yields the single
`OrderRejected{"instrument not found"}` built from the shared counter; the
venue's engines — their logs, states and books — are untouched (only the
`seq` counter advanced), so the rejection is absent from every engine's
event log and invisible to any later replay of those logs. -/
theorem unknown_instrument_rejection_unrecorded (v : Venue) (ts : Int) (cmd : Command)
    (h : dictGet cmd.instrument v.engines = none) :
    v.submit ts cmd = .ok
      ([Engine._reject (v.seq + 1) ts cmd.instrument cmd.order_id "instrument not found"],
       { v with seq := v.seq + 1 })
    ∧ ({ v with seq := v.seq + 1 } : Venue).engines = v.engines := by
  unfold Venue.submit
  rw [h]
  exact ⟨rfl, rfl⟩

/-- Witness for C10 on a one-instrument venue and a foreign command. -/
theorem unknown_instrument_rejection_unrecorded_witness :
    dictGet (Command.placeLimit "B" "alice" "o1" .BUY 100 1 0 .GTC false).instrument
        (Venue.init ["A"]).engines = none ∧
    (Venue.init ["A"]).submit 123 (Command.placeLimit "B" "alice" "o1" .BUY 100 1 0 .GTC false)
      = .ok ([Engine._reject 1 123 "B" "o1" "instrument not found"],
             { Venue.init ["A"] with seq := 1 }) :=
  ⟨rfl, (unknown_instrument_rejection_unrecorded (Venue.init ["A"]) 123
      (Command.placeLimit "B" "alice" "o1" .BUY 100 1 0 .GTC false) rfl).1⟩

/-! ## C8: the contract of `OrderBook.cancel` -/

theorem dictGet_dictDel_self {κ α : Type} [DecidableEq κ] {k : κ} :
    ∀ {d : List (κ × α)}, (d.map Prod.fst).Nodup → dictGet k (dictDel k d) = none
  | [], _ => by simp [dictGet, dictDel]
  | (k', v') :: rest, h => by
    simp only [List.map_cons, List.nodup_cons] at h
    by_cases hk : k' = k
    · subst hk
      simp only [dictDel, if_pos rfl]
      cases hg : dictGet k' rest with
      | none => exact hg
      | some v =>
        exact absurd (List.mem_map.mpr ⟨(k', v), dictGet_mem hg, rfl⟩) h.1
    · simp only [dictDel, if_neg hk, dictGet, if_neg hk]
      exact dictGet_dictDel_self h.2

theorem keys_dictSet_of_mem {κ α : Type} [DecidableEq κ] {k : κ} {v : α} :
    ∀ {d : List (κ × α)}, dictHas k d → (dictSet k v d).map Prod.fst = d.map Prod.fst
  | [], h => by simp [dictHas, dictGet] at h
  | (k', v') :: rest, h => by
    by_cases hk : k' = k
    · subst hk
      simp [dictSet]
    · have : dictHas k rest := by simpa [dictHas, dictGet, hk] using h
      simp [dictSet, hk, keys_dictSet_of_mem this]

theorem plc_go_none {oid : String} :
    ∀ {os : List RestingOrder}, oid ∉ os.map (fun o => o.order_id) →
      PriceLevel.cancel.go oid os = none
  | [], _ => rfl
  | o :: rest, h => by
    simp only [List.map_cons, List.mem_cons, not_or] at h
    simp only [PriceLevel.cancel.go, if_neg (fun hx : o.order_id = oid => h.1 hx.symm)]
    rw [plc_go_none h.2]
    rfl

theorem plc_go_removes {oid : String} :
    ∀ {os : List RestingOrder}, (os.map (fun o => o.order_id)).Nodup →
      oid ∈ os.map (fun o => o.order_id) →
      ∃ os', PriceLevel.cancel.go oid os = some os' ∧ oid ∉ os'.map (fun o => o.order_id)
  | [], _, h => by simp at h
  | o :: rest, hnd, h => by
    simp only [List.map_cons, List.nodup_cons] at hnd
    by_cases hx : o.order_id = oid
    · refine ⟨rest, ?_, ?_⟩
      · simp [PriceLevel.cancel.go, hx]
      · exact fun hmem => hnd.1 (hx ▸ hmem)
    · have hm : oid ∈ rest.map (fun o => o.order_id) := by
        rcases List.mem_cons.mp h with h | h
        · exact absurd h.symm hx
        · exact h
      obtain ⟨os', hgo, hnot⟩ := plc_go_removes hnd.2 hm
      refine ⟨o :: os', ?_, ?_⟩
      · simp [PriceLevel.cancel.go, hx, hgo]
      · simp only [List.map_cons, List.mem_cons, not_or]
        exact ⟨fun hs => hx hs.symm, hnot⟩

theorem removeSorted_ok_of_mem {p : Int} :
    ∀ {l : List Int}, l.Sorted (· < ·) → p ∈ l → ∃ l', removeSorted p l = .ok l'
  | [], _, h => by simp at h
  | x :: xs, hs, h => by
    by_cases hx : x = p
    · subst hx
      exact ⟨xs, by simp [removeSorted]⟩
    · rcases List.mem_cons.mp h with h | h
      · exact absurd h.symm hx
      · have hlt : x < p := (List.pairwise_cons.mp hs).1 p h
        obtain ⟨l', hl'⟩ := removeSorted_ok_of_mem (List.Pairwise.of_cons hs) h
        exact ⟨x :: l', by simp [removeSorted, hlt, hl']⟩

theorem cancel_eq_none (b : OrderBook) (oid : String)
    (h : dictGet oid b.orders_by_id = none) : b.cancel oid = .ok (false, b) := by
  unfold OrderBook.cancel
  rw [h]

theorem cancel_eq_buy_nolevel (b : OrderBook) (oid : String) (p : Int)
    (h : dictGet oid b.orders_by_id = some (Side.BUY, p))
    (hlv : dictGet p b.bids = none) : b.cancel oid = .ok (false, b) := by
  unfold OrderBook.cancel
  rw [h]
  try dsimp only
  rw [hlv]

theorem cancel_eq_sell_nolevel (b : OrderBook) (oid : String) (p : Int)
    (h : dictGet oid b.orders_by_id = some (Side.SELL, p))
    (hlv : dictGet p b.asks = none) : b.cancel oid = .ok (false, b) := by
  unfold OrderBook.cancel
  rw [h]
  try dsimp only
  rw [hlv]

theorem cancel_eq_buy_notin (b : OrderBook) (oid : String) (p : Int) (lvl : PriceLevel)
    (h : dictGet oid b.orders_by_id = some (Side.BUY, p))
    (hlv : dictGet p b.bids = some lvl)
    (hgo : PriceLevel.cancel.go oid lvl.orders = none) : b.cancel oid = .ok (false, b) := by
  unfold OrderBook.cancel
  rw [h]
  try dsimp only
  rw [hlv]
  try dsimp only
  simp only [PriceLevel.cancel, hgo]

theorem cancel_eq_sell_notin (b : OrderBook) (oid : String) (p : Int) (lvl : PriceLevel)
    (h : dictGet oid b.orders_by_id = some (Side.SELL, p))
    (hlv : dictGet p b.asks = some lvl)
    (hgo : PriceLevel.cancel.go oid lvl.orders = none) : b.cancel oid = .ok (false, b) := by
  unfold OrderBook.cancel
  rw [h]
  try dsimp only
  rw [hlv]
  try dsimp only
  simp only [PriceLevel.cancel, hgo]

theorem cancel_eq_buy_empty (b : OrderBook) (oid : String) (p : Int) (lvl : PriceLevel)
    (lad' : List Int)
    (h : dictGet oid b.orders_by_id = some (Side.BUY, p))
    (hlv : dictGet p b.bids = some lvl)
    (hgo : PriceLevel.cancel.go oid lvl.orders = some [])
    (hlad' : removeSorted p b.bid_prices = .ok lad') :
    b.cancel oid = .ok (true,
      { b with bids := dictDel p (dictSet p { lvl with orders := [] } b.bids),
               bid_prices := lad',
               orders_by_id := dictDel oid b.orders_by_id }) := by
  unfold OrderBook.cancel
  rw [h]
  try dsimp only
  rw [hlv]
  try dsimp only
  simp only [PriceLevel.cancel, hgo]
  try dsimp only
  unfold OrderBook._remove_level_if_empty
  try dsimp only
  rw [dictGet_dictSet_self]
  try dsimp only
  simp only [List.isEmpty_nil, if_pos, hlad']
  simp [Bind.bind, Except.bind]

theorem cancel_eq_sell_empty (b : OrderBook) (oid : String) (p : Int) (lvl : PriceLevel)
    (lad' : List Int)
    (h : dictGet oid b.orders_by_id = some (Side.SELL, p))
    (hlv : dictGet p b.asks = some lvl)
    (hgo : PriceLevel.cancel.go oid lvl.orders = some [])
    (hlad' : removeSorted p b.ask_prices = .ok lad') :
    b.cancel oid = .ok (true,
      { b with asks := dictDel p (dictSet p { lvl with orders := [] } b.asks),
               ask_prices := lad',
               orders_by_id := dictDel oid b.orders_by_id }) := by
  unfold OrderBook.cancel
  rw [h]
  try dsimp only
  rw [hlv]
  try dsimp only
  simp only [PriceLevel.cancel, hgo]
  try dsimp only
  unfold OrderBook._remove_level_if_empty
  try dsimp only
  rw [dictGet_dictSet_self]
  try dsimp only
  simp only [List.isEmpty_nil, if_pos, hlad']
  simp [Bind.bind, Except.bind]

theorem cancel_eq_buy_keep (b : OrderBook) (oid : String) (p : Int) (lvl : PriceLevel)
    (os' : List RestingOrder) (hos : os' ≠ [])
    (h : dictGet oid b.orders_by_id = some (Side.BUY, p))
    (hlv : dictGet p b.bids = some lvl)
    (hgo : PriceLevel.cancel.go oid lvl.orders = some os') :
    b.cancel oid = .ok (true,
      { b with bids := dictSet p { lvl with orders := os' } b.bids,
               orders_by_id := dictDel oid b.orders_by_id }) := by
  unfold OrderBook.cancel
  rw [h]
  try dsimp only
  rw [hlv]
  try dsimp only
  simp only [PriceLevel.cancel, hgo]
  try dsimp only
  unfold OrderBook._remove_level_if_empty
  try dsimp only
  rw [dictGet_dictSet_self]
  try dsimp only
  simp only [List.isEmpty_iff, hos, if_neg]
  simp [Bind.bind, Except.bind]

theorem cancel_eq_sell_keep (b : OrderBook) (oid : String) (p : Int) (lvl : PriceLevel)
    (os' : List RestingOrder) (hos : os' ≠ [])
    (h : dictGet oid b.orders_by_id = some (Side.SELL, p))
    (hlv : dictGet p b.asks = some lvl)
    (hgo : PriceLevel.cancel.go oid lvl.orders = some os') :
    b.cancel oid = .ok (true,
      { b with asks := dictSet p { lvl with orders := os' } b.asks,
               orders_by_id := dictDel oid b.orders_by_id }) := by
  unfold OrderBook.cancel
  rw [h]
  try dsimp only
  rw [hlv]
  try dsimp only
  simp only [PriceLevel.cancel, hgo]
  try dsimp only
  unfold OrderBook._remove_level_if_empty
  try dsimp only
  rw [dictGet_dictSet_self]
  try dsimp only
  simp only [List.isEmpty_iff, hos, if_neg]
  simp [Bind.bind, Except.bind]

/-- C8 (amended): the full case analysis of `OrderBook.cancel`.
An id absent from `orders_by_id` returns `false`; an index entry pointing
at a missing level returns `false` (it does **not** raise); a level that
does not contain the id returns `false`; and in the consistent case the
order is removed from its level (and the emptied level from the book), the
index entry is erased, and `cancel` returns `true`. -/
theorem cancel_spec (b : OrderBook) (oid : String) :
    (dictGet oid b.orders_by_id = none → b.cancel oid = .ok (false, b))
    ∧ (∀ side p, dictGet oid b.orders_by_id = some (side, p) →
        b._get_level side p = none → b.cancel oid = .ok (false, b))
    ∧ (∀ side p lvl, dictGet oid b.orders_by_id = some (side, p) →
        b._get_level side p = some lvl → oid ∉ lvl.orders.map (fun o => o.order_id) →
        b.cancel oid = .ok (false, b))
    ∧ (∀ side p lvl, dictGet oid b.orders_by_id = some (side, p) →
        b._get_level side p = some lvl → oid ∈ lvl.orders.map (fun o => o.order_id) →
        (lvl.orders.map (fun o => o.order_id)).Nodup →
        (b.orders_by_id.map Prod.fst).Nodup →
        (b.bids.map Prod.fst).Nodup → (b.asks.map Prod.fst).Nodup →
        b.bid_prices.Sorted (· < ·) → b.ask_prices.Sorted (· < ·) →
        (∀ q, dictHas q b.bids → q ∈ b.bid_prices) →
        (∀ q, dictHas q b.asks → q ∈ b.ask_prices) →
        ∃ b', b.cancel oid = .ok (true, b')
          ∧ dictGet oid b'.orders_by_id = none
          ∧ ∀ lvl', b'._get_level side p = some lvl' →
              oid ∉ lvl'.orders.map (fun o => o.order_id)) := by
  refine ⟨cancel_eq_none b oid, ?_, ?_, ?_⟩
  · intro side p h hlv
    cases side with
    | BUY => exact cancel_eq_buy_nolevel b oid p h hlv
    | SELL => exact cancel_eq_sell_nolevel b oid p h hlv
  · intro side p lvl h hlv hno
    have hgo := plc_go_none hno
    cases side with
    | BUY => exact cancel_eq_buy_notin b oid p lvl h hlv hgo
    | SELL => exact cancel_eq_sell_notin b oid p lvl h hlv hgo
  · intro side p lvl h hlv hin hlnd hind hbnd hand hbs has hbm ham
    obtain ⟨os', hgo, hnot⟩ := plc_go_removes hlnd hin
    cases side with
    | BUY =>
      simp only [OrderBook._get_level] at hlv
      have hmem : p ∈ b.bid_prices := hbm p (by simp [dictHas, hlv])
      by_cases hemp : os' = []
      · subst hemp
        obtain ⟨lad', hlad'⟩ := removeSorted_ok_of_mem hbs hmem
        refine ⟨_, cancel_eq_buy_empty b oid p lvl lad' h hlv hgo hlad', ?_, ?_⟩
        · exact dictGet_dictDel_self hind
        · intro lvl' hlv'
          simp only [OrderBook._get_level] at hlv'
          rw [dictGet_dictDel_self
            (by rw [keys_dictSet_of_mem (by simp [dictHas, hlv])]; exact hbnd)] at hlv'
          exact absurd hlv' (by simp)
      · refine ⟨_, cancel_eq_buy_keep b oid p lvl os' hemp h hlv hgo, ?_, ?_⟩
        · exact dictGet_dictDel_self hind
        · intro lvl' hlv'
          simp only [OrderBook._get_level] at hlv'
          rw [dictGet_dictSet_self] at hlv'
          cases hlv'
          exact hnot
    | SELL =>
      simp only [OrderBook._get_level] at hlv
      have hmem : p ∈ b.ask_prices := ham p (by simp [dictHas, hlv])
      by_cases hemp : os' = []
      · subst hemp
        obtain ⟨lad', hlad'⟩ := removeSorted_ok_of_mem has hmem
        refine ⟨_, cancel_eq_sell_empty b oid p lvl lad' h hlv hgo hlad', ?_, ?_⟩
        · exact dictGet_dictDel_self hind
        · intro lvl' hlv'
          simp only [OrderBook._get_level] at hlv'
          rw [dictGet_dictDel_self
            (by rw [keys_dictSet_of_mem (by simp [dictHas, hlv])]; exact hand)] at hlv'
          exact absurd hlv' (by simp)
      · refine ⟨_, cancel_eq_sell_keep b oid p lvl os' hemp h hlv hgo, ?_, ?_⟩
        · exact dictGet_dictDel_self hind
        · intro lvl' hlv'
          simp only [OrderBook._get_level] at hlv'
          rw [dictGet_dictSet_self] at hlv'
          cases hlv'
          exact hnot

/-- Witness for C8 on a one-order book: the consistent cancel succeeds. -/
theorem cancel_spec_witness :
    (dictGet "a1" ((OrderBook.empty "I")._rest ⟨"a1", "I", .SELL, 100, 3⟩).orders_by_id
        = some (Side.SELL, 100)) ∧
    ∃ b', ((OrderBook.empty "I")._rest ⟨"a1", "I", .SELL, 100, 3⟩).cancel "a1" = .ok (true, b')
      ∧ dictGet "a1" b'.orders_by_id = none
      ∧ ∀ lvl', b'._get_level .SELL 100 = some lvl' →
          "a1" ∉ lvl'.orders.map (fun o => o.order_id) := by
  refine ⟨rfl, ?_⟩
  refine (cancel_spec ((OrderBook.empty "I")._rest ⟨"a1", "I", .SELL, 100, 3⟩) "a1").2.2.2
    .SELL 100 ⟨100, [⟨"a1", "I", .SELL, 100, 3⟩]⟩ rfl rfl
    (by decide) (by decide) (by decide) (by decide) (by decide) (by decide) (by decide)
    ?_ ?_
  · intro q hq
    rw [show ((OrderBook.empty "I")._rest ⟨"a1", "I", .SELL, 100, 3⟩).bids = [] from rfl] at hq
    simp [dictHas, dictGet] at hq
  · intro q hq
    rw [show ((OrderBook.empty "I")._rest ⟨"a1", "I", .SELL, 100, 3⟩).asks
        = [(100, ⟨100, [⟨"a1", "I", .SELL, 100, 3⟩]⟩)] from rfl] at hq
    rw [show ((OrderBook.empty "I")._rest ⟨"a1", "I", .SELL, 100, 3⟩).ask_prices = [100] from rfl]
    simp only [dictHas, dictGet] at hq
    by_cases hx : (100 : Int) = q
    · simp [← hx]
    · simp [hx] at hq

/-! ## C6: the book is never crossed or locked -/

theorem mem_of_getLast?_int {l : List Int} {a : Int} (h : l.getLast? = some a) : a ∈ l := by
  obtain ⟨hne, rfl⟩ := List.mem_getLast?_eq_getLast (show a ∈ l.getLast? from h)
  exact List.getLast_mem hne

theorem mem_of_head?_int {l : List Int} {a : Int} (h : l.head? = some a) : a ∈ l :=
  List.mem_of_mem_head? (by simp [h])

theorem pairwise_of_append_right {R : Int → Int → Prop} {l1 l2 : List Int}
    (h : (l1 ++ l2).Pairwise R) : l2.Pairwise R :=
  (List.pairwise_append.mp h).2.1

theorem sorted_head_le {h0 : Int} {t : List Int} (hs : (h0 :: t).Sorted (· < ·)) :
    ∀ x ∈ h0 :: t, h0 ≤ x := by
  intro x hx
  rcases List.mem_cons.mp hx with rfl | hx
  · exact le_refl x
  · exact le_of_lt ((List.pairwise_cons.mp hs).1 x hx)

theorem revsorted_head_ge {h0 : Int} {t : List Int}
    (hs : (h0 :: t).Pairwise (fun a c => c < a)) :
    ∀ x ∈ h0 :: t, x ≤ h0 := by
  intro x hx
  rcases List.mem_cons.mp hx with rfl | hx
  · exact le_refl x
  · exact le_of_lt ((List.pairwise_cons.mp hs).1 x hx)

/-- Inversion of `place_limit`: the match result and whether the remainder
rested. -/
theorem place_limit_ok_inv {b : OrderBook} {o : RestingOrder}
    {fills : List Fill} {rem : Int} {b' : OrderBook}
    (h : b.place_limit o = .ok (fills, rem, b')) :
    ∃ b1, b._match o.side o.price o.remaining = .ok (fills, rem, b1) ∧
      ((0 < rem ∧ b' = b1._rest { o with remaining := rem }) ∨ (¬ 0 < rem ∧ b' = b1)) := by
  unfold OrderBook.place_limit at h
  split_ifs at h with hinst
  cases hm : b._match o.side o.price o.remaining with
  | error e => rw [hm] at h; simp [Bind.bind, Except.bind] at h
  | ok t =>
    obtain ⟨f, r, b1⟩ := t
    rw [hm] at h
    simp only [Bind.bind, Except.bind] at h
    split_ifs at h with hrem
    · simp only [Except.ok.injEq, Prod.mk.injEq] at h
      obtain ⟨rfl, rfl, rfl⟩ := h
      exact ⟨b1, rfl, Or.inl ⟨hrem, rfl⟩⟩
    · simp only [Except.ok.injEq, Prod.mk.injEq] at h
      obtain ⟨rfl, rfl, rfl⟩ := h
      exact ⟨b1, rfl, Or.inr ⟨hrem, rfl⟩⟩

/-- Inversion of `_match` for a BUY taker. -/
theorem match_buy_inv {b : OrderBook} {tp q : Int}
    {fills : List Fill} {rem : Int} {b1 : OrderBook}
    (h : b._match .BUY tp q = .ok (fills, rem, b1)) :
    ∃ r : MatchResult,
      matchSide (fun op => op ≤ tp) b.asks b.orders_by_id q b.ask_prices = .ok r ∧
      fills = r.fills ∧ rem = r.remaining ∧
      b1 = { b with asks := r.levels, ask_prices := r.ladder, orders_by_id := r.index } := by
  unfold OrderBook._match at h
  cases hms : matchSide (fun op => op ≤ tp) b.asks b.orders_by_id q b.ask_prices with
  | error e => rw [hms] at h; simp [Bind.bind, Except.bind] at h
  | ok r =>
    rw [hms] at h
    simp only [Bind.bind, Except.bind, Except.ok.injEq, Prod.mk.injEq] at h
    obtain ⟨rfl, rfl, rfl⟩ := h
    exact ⟨r, rfl, rfl, rfl, rfl⟩

/-- Inversion of `_match` for a SELL taker (ladder walked in reverse). -/
theorem match_sell_inv {b : OrderBook} {tp q : Int}
    {fills : List Fill} {rem : Int} {b1 : OrderBook}
    (h : b._match .SELL tp q = .ok (fills, rem, b1)) :
    ∃ r : MatchResult,
      matchSide (fun op => tp ≤ op) b.bids b.orders_by_id q b.bid_prices.reverse = .ok r ∧
      fills = r.fills ∧ rem = r.remaining ∧
      b1 = { b with bids := r.levels, bid_prices := r.ladder.reverse, orders_by_id := r.index } := by
  unfold OrderBook._match at h
  cases hms : matchSide (fun op => tp ≤ op) b.bids b.orders_by_id q b.bid_prices.reverse with
  | error e => rw [hms] at h; simp [Bind.bind, Except.bind] at h
  | ok r =>
    rw [hms] at h
    simp only [Bind.bind, Except.bind, Except.ok.injEq, Prod.mk.injEq] at h
    obtain ⟨rfl, rfl, rfl⟩ := h
    exact ⟨r, rfl, rfl, rfl, rfl⟩

theorem rest_buy_ask_prices {b : OrderBook} {o : RestingOrder} (hs : o.side = .BUY) :
    (b._rest o).ask_prices = b.ask_prices := by
  unfold OrderBook._rest OrderBook._ensure_level
  rw [hs]
  by_cases hh : dictHas o.price b.bids <;> simp [hh]

theorem rest_sell_bid_prices {b : OrderBook} {o : RestingOrder} (hs : o.side = .SELL) :
    (b._rest o).bid_prices = b.bid_prices := by
  unfold OrderBook._rest OrderBook._ensure_level
  rw [hs]
  by_cases hh : dictHas o.price b.asks <;> simp [hh]

theorem mem_rest_buy_bid_prices {b : OrderBook} {o : RestingOrder} {x : Int}
    (hs : o.side = .BUY) (h : x ∈ (b._rest o).bid_prices) :
    x = o.price ∨ x ∈ b.bid_prices := by
  unfold OrderBook._rest OrderBook._ensure_level at h
  rw [hs] at h
  by_cases hh : dictHas o.price b.bids
  · simp only [hh, if_true] at h
    exact Or.inr h
  · simp only [hh, if_false] at h
    exact mem_insort.mp h

theorem mem_rest_sell_ask_prices {b : OrderBook} {o : RestingOrder} {x : Int}
    (hs : o.side = .SELL) (h : x ∈ (b._rest o).ask_prices) :
    x = o.price ∨ x ∈ b.ask_prices := by
  unfold OrderBook._rest OrderBook._ensure_level at h
  rw [hs] at h
  by_cases hh : dictHas o.price b.asks
  · simp only [hh, if_true] at h
    exact Or.inr h
  · simp only [hh, if_false] at h
    exact mem_insort.mp h

/-- `_remove_level_if_empty` only ever removes ladder entries. -/
theorem rlie_ladder_sub {b : OrderBook} {side : Side} {p : Int} {b2 : OrderBook}
    (h : b._remove_level_if_empty side p = .ok b2) :
    (∀ x ∈ b2.bid_prices, x ∈ b.bid_prices) ∧ (∀ x ∈ b2.ask_prices, x ∈ b.ask_prices) := by
  unfold OrderBook._remove_level_if_empty at h
  cases side with
  | BUY =>
    revert h
    cases hlv : dictGet p b.bids with
    | none =>
      intro h
      simp only [Except.ok.injEq] at h
      subst h
      exact ⟨fun x hx => hx, fun x hx => hx⟩
    | some lvl =>
      try dsimp only
      intro h
      split_ifs at h with hemp
      · revert h
        cases hrs : removeSorted p b.bid_prices with
        | error e => intro h; simp [Bind.bind, Except.bind] at h
        | ok lad =>
          intro h
          simp only [Bind.bind, Except.bind, Except.ok.injEq] at h
          subst h
          exact ⟨fun x hx => mem_removeSorted hrs x hx, fun x hx => hx⟩
      · simp only [Except.ok.injEq] at h
        subst h
        exact ⟨fun x hx => hx, fun x hx => hx⟩
  | SELL =>
    revert h
    cases hlv : dictGet p b.asks with
    | none =>
      intro h
      simp only [Except.ok.injEq] at h
      subst h
      exact ⟨fun x hx => hx, fun x hx => hx⟩
    | some lvl =>
      try dsimp only
      intro h
      split_ifs at h with hemp
      · revert h
        cases hrs : removeSorted p b.ask_prices with
        | error e => intro h; simp [Bind.bind, Except.bind] at h
        | ok lad =>
          intro h
          simp only [Bind.bind, Except.bind, Except.ok.injEq] at h
          subst h
          exact ⟨fun x hx => hx, fun x hx => mem_removeSorted hrs x hx⟩
      · simp only [Except.ok.injEq] at h
        subst h
        exact ⟨fun x hx => hx, fun x hx => hx⟩

/-- `cancel` only ever removes ladder entries. -/
theorem cancel_ladder_sub {b : OrderBook} {oid : String} {res : Bool} {b' : OrderBook}
    (h : b.cancel oid = .ok (res, b')) :
    (∀ x ∈ b'.bid_prices, x ∈ b.bid_prices) ∧ (∀ x ∈ b'.ask_prices, x ∈ b.ask_prices) := by
  unfold OrderBook.cancel at h
  revert h
  cases hidx : dictGet oid b.orders_by_id with
  | none =>
    intro h
    simp only [Except.ok.injEq, Prod.mk.injEq] at h
    rw [← h.2]
    exact ⟨fun x hx => hx, fun x hx => hx⟩
  | some sp =>
    obtain ⟨side, p⟩ := sp
    cases side with
    | BUY =>
      try dsimp only
      cases hlv : dictGet p b.bids with
      | none =>
        intro h
        simp only [Except.ok.injEq, Prod.mk.injEq] at h
        rw [← h.2]
        exact ⟨fun x hx => hx, fun x hx => hx⟩
      | some lvl =>
        try dsimp only
        cases hpc : lvl.cancel oid with
        | mk found lvl' =>
          cases found with
          | false =>
            intro h
            simp only [Except.ok.injEq, Prod.mk.injEq] at h
            rw [← h.2]
            exact ⟨fun x hx => hx, fun x hx => hx⟩
          | true =>
            try dsimp only
            intro h
            revert h
            cases hrl : OrderBook._remove_level_if_empty
                { b with bids := dictSet p lvl' b.bids } .BUY p with
            | error e => intro h; simp [Bind.bind, Except.bind] at h
            | ok b2 =>
              intro h
              simp only [Bind.bind, Except.bind, Except.ok.injEq, Prod.mk.injEq] at h
              rw [← h.2]
              have := rlie_ladder_sub hrl
              exact ⟨fun x hx => this.1 x hx, fun x hx => this.2 x hx⟩
    | SELL =>
      try dsimp only
      cases hlv : dictGet p b.asks with
      | none =>
        intro h
        simp only [Except.ok.injEq, Prod.mk.injEq] at h
        rw [← h.2]
        exact ⟨fun x hx => hx, fun x hx => hx⟩
      | some lvl =>
        try dsimp only
        cases hpc : lvl.cancel oid with
        | mk found lvl' =>
          cases found with
          | false =>
            intro h
            simp only [Except.ok.injEq, Prod.mk.injEq] at h
            rw [← h.2]
            exact ⟨fun x hx => hx, fun x hx => hx⟩
          | true =>
            try dsimp only
            intro h
            revert h
            cases hrl : OrderBook._remove_level_if_empty
                { b with asks := dictSet p lvl' b.asks } .SELL p with
            | error e => intro h; simp [Bind.bind, Except.bind] at h
            | ok b2 =>
              intro h
              simp only [Bind.bind, Except.bind, Except.ok.injEq, Prod.mk.injEq] at h
              rw [← h.2]
              have := rlie_ladder_sub hrl
              exact ⟨fun x hx => this.1 x hx, fun x hx => this.2 x hx⟩

/-- C6: after `place_limit` or `cancel` — the two book mutations a `submit`
can perform — no bid price reaches any ask price (spec invariant I4), and
in particular `best_bid < best_ask` whenever both exist. -/
theorem submit_book_never_crossed (b : OrderBook)
    (hbs : b.bid_prices.Sorted (· < ·)) (has : b.ask_prices.Sorted (· < ·))
    (hunc : ∀ pb ∈ b.bid_prices, ∀ pa ∈ b.ask_prices, pb < pa) :
    (∀ o fills rem b', b.place_limit o = .ok (fills, rem, b') →
      (∀ pb ∈ b'.bid_prices, ∀ pa ∈ b'.ask_prices, pb < pa) ∧
      (∀ pb pa, b'.best_bid = some pb → b'.best_ask = some pa → pb < pa)) ∧
    (∀ oid res b', b.cancel oid = .ok (res, b') →
      (∀ pb ∈ b'.bid_prices, ∀ pa ∈ b'.ask_prices, pb < pa) ∧
      (∀ pb pa, b'.best_bid = some pb → b'.best_ask = some pa → pb < pa)) := by
  constructor
  · intro o fills rem b' hok
    obtain ⟨b1, hm, hcase⟩ := place_limit_ok_inv hok
    suffices hu : ∀ pb ∈ b'.bid_prices, ∀ pa ∈ b'.ask_prices, pb < pa by
      refine ⟨hu, fun pb pa hb ha => hu pb ?_ pa ?_⟩
      · exact mem_of_getLast?_int hb
      · exact mem_of_head?_int ha
    cases hside : o.side with
    | BUY =>
      rw [hside] at hm
      obtain ⟨r, hms, _, rfl, rfl⟩ := match_buy_inv hm
      obtain ⟨pre, hpre⟩ := matchSide_ladder_suffix hms
      have hsuffsorted : r.ladder.Sorted (· < ·) := pairwise_of_append_right (hpre ▸ has)
      have haskmem : ∀ pa ∈ r.ladder, pa ∈ b.ask_prices := by
        intro pa hpa
        rw [hpre]
        exact List.mem_append_right _ hpa
      rcases hcase with ⟨hrem, rfl⟩ | ⟨hrem, rfl⟩
      · intro pb hpb pa hpa
        rw [rest_buy_ask_prices (by simp [hside])] at hpa
        rcases mem_rest_buy_bid_prices (by simp [hside]) hpb with rfl | hpb
        · rcases matchSide_stop hms hrem with hlad | ⟨ph, pt, hlad, hcross⟩
          · rw [hlad] at hpa
            simp at hpa
          · rw [hlad] at hpa hsuffsorted
            have hlt : o.price < ph := by
              simpa using hcross
            rcases List.mem_cons.mp hpa with rfl | hpa
            · simpa using hlt
            · calc ({ o with remaining := r.remaining } : RestingOrder).price
                    < ph := by simpa using hlt
                _ < pa := (List.pairwise_cons.mp hsuffsorted).1 pa hpa
        · exact hunc pb hpb pa (haskmem pa hpa)
      · intro pb hpb pa hpa
        exact hunc pb hpb pa (haskmem pa hpa)
    | SELL =>
      rw [hside] at hm
      obtain ⟨r, hms, _, rfl, rfl⟩ := match_sell_inv hm
      obtain ⟨pre, hpre⟩ := matchSide_ladder_suffix hms
      have hrevp : b.bid_prices.reverse.Pairwise (fun a c => c < a) :=
        List.pairwise_reverse.mpr hbs
      have hsuffp : r.ladder.Pairwise (fun a c => c < a) :=
        pairwise_of_append_right (hpre ▸ hrevp)
      have hbidmem : ∀ pb ∈ r.ladder, pb ∈ b.bid_prices := by
        intro pb hpb
        have : pb ∈ b.bid_prices.reverse := by
          rw [hpre]
          exact List.mem_append_right _ hpb
        exact List.mem_reverse.mp this
      rcases hcase with ⟨hrem, rfl⟩ | ⟨hrem, rfl⟩
      · intro pb hpb pa hpa
        rw [rest_sell_bid_prices (by simp [hside])] at hpb
        have hpb' : pb ∈ r.ladder := List.mem_reverse.mp hpb
        rcases mem_rest_sell_ask_prices (by simp [hside]) hpa with rfl | hpa
        · rcases matchSide_stop hms hrem with hlad | ⟨ph, pt, hlad, hcross⟩
          · rw [hlad] at hpb'
            simp at hpb'
          · rw [hlad] at hpb' hsuffp
            have hlt : ph < o.price := by
              simpa using hcross
            calc pb ≤ ph := revsorted_head_ge hsuffp pb hpb'
              _ < ({ o with remaining := r.remaining } : RestingOrder).price := by simpa using hlt
        · exact hunc pb (hbidmem pb hpb') pa hpa
      · intro pb hpb pa hpa
        have hpb' : pb ∈ r.ladder := List.mem_reverse.mp hpb
        exact hunc pb (hbidmem pb hpb') pa hpa
  · intro oid res b' hok
    obtain ⟨hbsub, hasub⟩ := cancel_ladder_sub hok
    refine ⟨fun pb hpb pa hpa => hunc pb (hbsub pb hpb) pa (hasub pa hpa),
      fun pb pa hb ha => hunc pb (hbsub pb (mem_of_getLast?_int hb))
        pa (hasub pa (mem_of_head?_int ha))⟩

/-- Witness for C6 on the S4-style book and taker: the remainder rests at
100 and the ask side empties, leaving an uncrossed book. -/
theorem submit_book_never_crossed_witness :
    iocBook.bid_prices.Sorted (· < ·) ∧ iocBook.ask_prices.Sorted (· < ·) ∧
    (∀ pb ∈ iocBook.bid_prices, ∀ pa ∈ iocBook.ask_prices, pb < pa) ∧
    ∃ fills rem b', iocBook.place_limit iocTaker = .ok (fills, rem, b') ∧
      (∀ pb ∈ b'.bid_prices, ∀ pa ∈ b'.ask_prices, pb < pa) := by
  refine ⟨by decide, by decide, by decide, ?_⟩
  have hok : iocBook.place_limit iocTaker = .ok ([⟨"a1", 100, 2⟩], 3,
      { instrument := "BTC-USD"
        bids := [(100, ⟨100, [⟨"ioc1", "BTC-USD", .BUY, 100, 3⟩]⟩)]
        asks := []
        bid_prices := [100]
        ask_prices := []
        orders_by_id := [("ioc1", (Side.BUY, 100))] }) := rfl
  exact ⟨_, _, _, hok,
    ((submit_book_never_crossed iocBook (by decide) (by decide) (by decide)).1
      iocTaker _ _ _ hok).1⟩

/-! ## C1: maker pricing, best-price-first, FIFO within a level -/

theorem sorted_lt_nodup {l : List Int} (h : l.Sorted (· < ·)) : l.Nodup :=
  h.imp ne_of_lt

/-- Every fill of `place_limit` on a well-formed book names a maker that
was resting in the book, at the maker's own resting price. -/
theorem place_limit_fills_from_makers (b : OrderBook) (o : RestingOrder)
    (hwf : BookWF b) {fills : List Fill} {rem : Int} {b' : OrderBook}
    (hok : b.place_limit o = .ok (fills, rem, b')) :
    ∀ f ∈ fills, ∃ m ∈ b.restingOrders,
      m.order_id = f.maker_order_id ∧ m.price = f.maker_price := by
  obtain ⟨b1, hm, hcase⟩ := place_limit_ok_inv hok
  cases hside : o.side with
  | BUY =>
    rw [hside] at hm
    obtain ⟨r, hms, rfl, hrem, hb1⟩ := match_buy_inv hm
    have hnd : b.ask_prices.Nodup := sorted_lt_nodup hwf.askSorted
    intro f hf
    obtain ⟨lvl, hget, hmem⟩ := matchSide_fills_src hms hnd f hf
    obtain ⟨m, hm', hmid⟩ := List.mem_map.mp hmem
    have hlw := hwf.asksWF (f.maker_price, lvl) (dictGet_mem hget)
    refine ⟨m, ?_, hmid, (hlw.2 m hm').1⟩
    unfold OrderBook.restingOrders
    refine List.mem_append_right _ (List.mem_flatten.mpr ?_)
    exact ⟨lvl.orders, List.mem_map.mpr ⟨(f.maker_price, lvl), dictGet_mem hget, rfl⟩, hm'⟩
  | SELL =>
    rw [hside] at hm
    obtain ⟨r, hms, rfl, hrem, hb1⟩ := match_sell_inv hm
    have hnd : b.bid_prices.reverse.Nodup :=
      List.nodup_reverse.mpr (sorted_lt_nodup hwf.bidSorted)
    intro f hf
    obtain ⟨lvl, hget, hmem⟩ := matchSide_fills_src hms hnd f hf
    obtain ⟨m, hm', hmid⟩ := List.mem_map.mp hmem
    have hlw := hwf.bidsWF (f.maker_price, lvl) (dictGet_mem hget)
    refine ⟨m, ?_, hmid, (hlw.2 m hm').1⟩
    unfold OrderBook.restingOrders
    refine List.mem_append_left _ (List.mem_flatten.mpr ?_)
    exact ⟨lvl.orders, List.mem_map.mpr ⟨(f.maker_price, lvl), dictGet_mem hget, rfl⟩, hm'⟩

/-- C1: for every limit order matched by `place_limit` on a well-formed
book: (1) each fill's trade price is the resting price of its maker (not
the taker's limit price); (2) the fill prices walk the opposite ladder
best-first (non-decreasing for a BUY taker, non-increasing for a SELL
taker), starting at the best opposite price; (3) within a single price
level the consumed makers are an initial segment, oldest-first, of that
level's FIFO queue. -/
theorem place_limit_price_time_priority (b : OrderBook) (o : RestingOrder)
    (hwf : BookWF b) {fills : List Fill} {rem : Int} {b' : OrderBook}
    (hok : b.place_limit o = .ok (fills, rem, b')) :
    (∀ f ∈ fills, ∃ m ∈ b.restingOrders,
        m.order_id = f.maker_order_id ∧ m.price = f.maker_price)
    ∧ (fills.map (fun f => f.maker_price)).Pairwise (priceNoWorse o.side)
    ∧ (fills ≠ [] → (fills.map (fun f => f.maker_price)).head? = bestOpp b o.side)
    ∧ (∀ p, ∃ suf, fillIds (fillsAt p fills) ++ suf = levelIdsAt (oppLevels b o.side) p) := by
  have hpart1 := place_limit_fills_from_makers b o hwf hok
  obtain ⟨b1, hm, hcase⟩ := place_limit_ok_inv hok
  cases hside : o.side with
  | BUY =>
    rw [hside] at hm
    obtain ⟨r, hms, rfl, hrem, hb1⟩ := match_buy_inv hm
    have hnd : b.ask_prices.Nodup := sorted_lt_nodup hwf.askSorted
    have hposlv : ∀ e ∈ b.asks, ∀ o' ∈ e.2.orders, 0 < o'.remaining :=
      fun e he o' ho' => ((hwf.asksWF e he).2 o' ho').2.2
    refine ⟨hpart1, ?_, ?_, ?_⟩
    · have hlad : b.ask_prices.Pairwise (· ≤ ·) := hwf.askSorted.imp le_of_lt
      have := matchSide_fills_pairwise hms hlad (fun a => le_refl a)
      simpa [priceNoWorse] using this
    · intro hne
      have := matchSide_head Side.SELL hwf.asksWF hms hne
      simpa [bestOpp, OrderBook.best_ask] using this
    · intro p
      have := matchSide_fifo hms hnd hposlv p
      simpa [oppLevels] using this
  | SELL =>
    rw [hside] at hm
    obtain ⟨r, hms, rfl, hrem, hb1⟩ := match_sell_inv hm
    have hnd : b.bid_prices.reverse.Nodup :=
      List.nodup_reverse.mpr (sorted_lt_nodup hwf.bidSorted)
    have hposlv : ∀ e ∈ b.bids, ∀ o' ∈ e.2.orders, 0 < o'.remaining :=
      fun e he o' ho' => ((hwf.bidsWF e he).2 o' ho').2.2
    refine ⟨hpart1, ?_, ?_, ?_⟩
    · have hlad : b.bid_prices.reverse.Pairwise (fun x y => y ≤ x) :=
        List.pairwise_reverse.mpr (hwf.bidSorted.imp le_of_lt)
      have := matchSide_fills_pairwise hms hlad (fun a => le_refl a)
      simpa [priceNoWorse] using this
    · intro hne
      have := matchSide_head Side.BUY hwf.bidsWF hms hne
      simpa [bestOpp, OrderBook.best_bid, List.head?_reverse] using this
    · intro p
      have := matchSide_fifo hms hnd hposlv p
      simpa [oppLevels] using this

/-- The three-ask book of the FIFO/priority witness:
`a1: 3@100` (oldest), `a2: 3@100`, `a3: 5@102`. -/
def c1Book : OrderBook :=
  (((OrderBook.empty "I")._rest ⟨"a1", "I", .SELL, 100, 3⟩)._rest
      ⟨"a2", "I", .SELL, 100, 3⟩)._rest ⟨"a3", "I", .SELL, 102, 5⟩

def c1Taker : RestingOrder := ⟨"b1", "I", .BUY, 102, 7⟩

/-- Witness for C1: the sweep `BUY b1 7@102` fills `a1` (3@100), `a2`
(3@100), then `a3` (1@102). -/
theorem place_limit_price_time_priority_witness :
    ∃ fills rem b', c1Book.place_limit c1Taker = .ok (fills, rem, b') ∧
      ((∀ f ∈ fills, ∃ m ∈ c1Book.restingOrders,
          m.order_id = f.maker_order_id ∧ m.price = f.maker_price)
       ∧ (fills.map (fun f => f.maker_price)).Pairwise (priceNoWorse c1Taker.side)
       ∧ (fills ≠ [] → (fills.map (fun f => f.maker_price)).head? = bestOpp c1Book c1Taker.side)
       ∧ (∀ p, ∃ suf,
            fillIds (fillsAt p fills) ++ suf = levelIdsAt (oppLevels c1Book c1Taker.side) p)) := by
  have hwf : BookWF c1Book := ⟨by decide, by decide, by decide, by decide⟩
  have hok : c1Book.place_limit c1Taker = .ok
      ([⟨"a1", 100, 3⟩, ⟨"a2", 100, 3⟩, ⟨"a3", 102, 1⟩], 0,
       { instrument := "I"
         bids := []
         asks := [(102, ⟨102, [⟨"a3", "I", .SELL, 102, 4⟩]⟩)]
         bid_prices := []
         ask_prices := [102]
         orders_by_id := [("a3", (Side.SELL, 102))] }) := rfl
  exact ⟨_, _, _, hok, place_limit_price_time_priority c1Book c1Taker hwf hok⟩

/-! ## C5: remaining conservation -/

theorem remOfOrders_addOrder_ne {id : String} {o : RestingOrder} (hne : id ≠ o.order_id) :
    ∀ {os : List RestingOrder},
      remOfOrders id (PriceLevel.add.addOrder o os) = remOfOrders id os
  | [] => by
    simp [PriceLevel.add.addOrder, remOfOrders, Ne.symm hne]
  | r :: rest => by
    by_cases hr : r.order_id = o.order_id
    · simp only [PriceLevel.add.addOrder, if_pos hr, remOfOrders, List.filter_cons]
      have h1 : ¬ (o.order_id = id) := Ne.symm hne
      have h2 : ¬ (r.order_id = id) := hr ▸ h1
      simp [h1, h2]
    · simp only [PriceLevel.add.addOrder, if_neg hr, remOfOrders, List.filter_cons]
      by_cases hrid : r.order_id = id
      · simp only [hrid, decide_eq_true_eq]
        simp only [remOfOrders] at remOfOrders_addOrder_ne
        simp [@remOfOrders_addOrder_ne id o hne rest]
      · simp only [hrid]
        simp only [remOfOrders] at remOfOrders_addOrder_ne
        simp [hrid, @remOfOrders_addOrder_ne id o hne rest]

theorem remInLevels_dictSet_absent {id : String} {k : Int} {w : PriceLevel} :
    ∀ {d : List (Int × PriceLevel)}, dictGet k d = none →
      remInLevels id (dictSet k w d) = remInLevels id d + remOfOrders id w.orders
  | [], _ => by simp [dictSet, remInLevels]
  | (k', v') :: rest, h => by
    by_cases hk : k' = k
    · simp [dictGet, hk] at h
    · simp only [dictGet, if_neg hk] at h
      have := @remInLevels_dictSet_absent id k w rest h
      simp only [dictSet, if_neg hk, remInLevels, List.map_cons, List.sum_cons] at this ⊢
      omega

theorem rest_eq_buy_has {b : OrderBook} {o : RestingOrder} {lvl : PriceLevel}
    (hs : o.side = .BUY) (hlv : dictGet o.price b.bids = some lvl) :
    b._rest o = { b with
      orders_by_id := dictSet o.order_id (Side.BUY, o.price) b.orders_by_id,
      bids := dictSet o.price (lvl.add o) b.bids } := by
  unfold OrderBook._rest OrderBook._ensure_level
  rw [hs]
  have hh : dictHas o.price b.bids = true := by simp [dictHas, hlv]
  simp only [hh, if_true]
  try dsimp only
  rw [hlv]
  try dsimp only
  rfl

theorem rest_eq_buy_new {b : OrderBook} {o : RestingOrder}
    (hs : o.side = .BUY) (hlv : dictGet o.price b.bids = none) :
    b._rest o = { b with
      orders_by_id := dictSet o.order_id (Side.BUY, o.price) b.orders_by_id,
      bid_prices := insort o.price b.bid_prices,
      bids := dictSet o.price (PriceLevel.add ⟨o.price, []⟩ o)
        (dictSet o.price ⟨o.price, []⟩ b.bids) } := by
  unfold OrderBook._rest OrderBook._ensure_level
  rw [hs]
  have hh : dictHas o.price b.bids = false := by simp [dictHas, hlv]
  simp only [hh, Bool.false_eq_true, if_false]
  try dsimp only
  rw [dictGet_dictSet_self]
  try dsimp only
  rfl

theorem rest_eq_sell_has {b : OrderBook} {o : RestingOrder} {lvl : PriceLevel}
    (hs : o.side = .SELL) (hlv : dictGet o.price b.asks = some lvl) :
    b._rest o = { b with
      orders_by_id := dictSet o.order_id (Side.SELL, o.price) b.orders_by_id,
      asks := dictSet o.price (lvl.add o) b.asks } := by
  unfold OrderBook._rest OrderBook._ensure_level
  rw [hs]
  have hh : dictHas o.price b.asks = true := by simp [dictHas, hlv]
  simp only [hh, if_true]
  try dsimp only
  rw [hlv]
  try dsimp only
  rfl

theorem rest_eq_sell_new {b : OrderBook} {o : RestingOrder}
    (hs : o.side = .SELL) (hlv : dictGet o.price b.asks = none) :
    b._rest o = { b with
      orders_by_id := dictSet o.order_id (Side.SELL, o.price) b.orders_by_id,
      ask_prices := insort o.price b.ask_prices,
      asks := dictSet o.price (PriceLevel.add ⟨o.price, []⟩ o)
        (dictSet o.price ⟨o.price, []⟩ b.asks) } := by
  unfold OrderBook._rest OrderBook._ensure_level
  rw [hs]
  have hh : dictHas o.price b.asks = false := by simp [dictHas, hlv]
  simp only [hh, Bool.false_eq_true, if_false]
  try dsimp only
  rw [dictGet_dictSet_self]
  try dsimp only
  rfl

/-- Resting an order does not change any other id's resting quantity. -/
theorem rest_bookRemaining_ne {b : OrderBook} {o : RestingOrder} {id : String}
    (hne : id ≠ o.order_id) :
    OrderBook.bookRemaining id (b._rest o) = OrderBook.bookRemaining id b := by
  cases hside : o.side with
  | BUY =>
    cases hlv : dictGet o.price b.bids with
    | some lvl =>
      rw [rest_eq_buy_has hside hlv]
      unfold OrderBook.bookRemaining
      try dsimp only
      have h1 := @remInLevels_dictSet id o.price lvl (lvl.add o) b.bids hlv
      have h2 := @remOfOrders_addOrder_ne id o hne lvl.orders
      unfold PriceLevel.add at h1 ⊢
      try dsimp only at h1 ⊢
      omega
    | none =>
      rw [rest_eq_buy_new hside hlv]
      unfold OrderBook.bookRemaining
      try dsimp only
      have h1 := @remInLevels_dictSet_absent id o.price
        (⟨o.price, []⟩ : PriceLevel) b.bids hlv
      have h2 := @remInLevels_dictSet id o.price (⟨o.price, []⟩ : PriceLevel)
        (PriceLevel.add ⟨o.price, []⟩ o)
        (dictSet o.price (⟨o.price, []⟩ : PriceLevel) b.bids)
        (dictGet_dictSet_self o.price (⟨o.price, []⟩ : PriceLevel) b.bids)
      have h3 := @remOfOrders_addOrder_ne id o hne []
      unfold PriceLevel.add at h2 ⊢
      try dsimp only at h2 ⊢
      simp only [remOfOrders_nil] at h1 h2 h3 ⊢
      omega
  | SELL =>
    cases hlv : dictGet o.price b.asks with
    | some lvl =>
      rw [rest_eq_sell_has hside hlv]
      unfold OrderBook.bookRemaining
      try dsimp only
      have h1 := @remInLevels_dictSet id o.price lvl (lvl.add o) b.asks hlv
      have h2 := @remOfOrders_addOrder_ne id o hne lvl.orders
      unfold PriceLevel.add at h1 ⊢
      try dsimp only at h1 ⊢
      omega
    | none =>
      rw [rest_eq_sell_new hside hlv]
      unfold OrderBook.bookRemaining
      try dsimp only
      have h1 := @remInLevels_dictSet_absent id o.price
        (⟨o.price, []⟩ : PriceLevel) b.asks hlv
      have h2 := @remInLevels_dictSet id o.price (⟨o.price, []⟩ : PriceLevel)
        (PriceLevel.add ⟨o.price, []⟩ o)
        (dictSet o.price (⟨o.price, []⟩ : PriceLevel) b.asks)
        (dictGet_dictSet_self o.price (⟨o.price, []⟩ : PriceLevel) b.asks)
      have h3 := @remOfOrders_addOrder_ne id o hne []
      unfold PriceLevel.add at h2 ⊢
      try dsimp only at h2 ⊢
      simp only [remOfOrders_nil] at h1 h2 h3 ⊢
      omega

theorem fillsQtySum_nonneg {fills : List Fill} (h : ∀ f ∈ fills, 0 ≤ f.qty) :
    0 ≤ fillsQtySum fills := by
  unfold fillsQtySum
  refine List.sum_nonneg ?_
  intro x hx
  obtain ⟨f, hf, rfl⟩ := List.mem_map.mp hx
  exact h f hf

/-- Folding the taker's `TradeOccurred` events into the state decrements the
taker record exactly by the filled quantity (no clamping occurs). -/
theorem trade_fold {inst tid : String} {trades : List Event} {fills : List Fill} {rem : Int}
    (h2 : List.Forall₂ (fun t f => ∃ sq tsn,
        t = Event.tradeOccurred sq tsn inst tid f.maker_order_id f.maker_price f.qty)
        trades fills)
    (hpos : ∀ f ∈ fills, 0 ≤ f.qty)
    (hne : ∀ f ∈ fills, f.maker_order_id ≠ tid)
    (hrem : 0 ≤ rem) :
    ∀ (st : EngineState) (rcd : OrderRecord),
      dictGet tid st.orders = some rcd →
      rcd.remaining = fillsQtySum fills + rem →
      ∀ {stN}, applyAllE st trades = .ok stN →
      ∃ rcd', dictGet tid stN.orders = some rcd' ∧ rcd'.remaining = rem := by
  induction h2 with
  | nil =>
    intro st rcd hr hrr stN happ
    simp only [applyAllE, Except.ok.injEq] at happ
    subst happ
    exact ⟨rcd, hr, by simpa [fillsQtySum] using hrr⟩
  | cons ht hrest ih =>
    rename_i t f trades' fills'
    obtain ⟨sq, tsn, rfl⟩ := ht
    intro st rcd hr hrr stN happ
    simp only [applyAllE] at happ
    have hposf : 0 ≤ f.qty := hpos f (List.mem_cons_self _ _)
    have hpos' : ∀ g ∈ fills', 0 ≤ g.qty := fun g hg => hpos g (List.mem_cons_of_mem _ hg)
    have hnef : f.maker_order_id ≠ tid := hne f (List.mem_cons_self _ _)
    have hne' : ∀ g ∈ fills', g.maker_order_id ≠ tid :=
      fun g hg => hne g (List.mem_cons_of_mem _ hg)
    have hsum' : 0 ≤ fillsQtySum fills' := fillsQtySum_nonneg hpos'
    have hupd : (tradeUpdate rcd f.qty).remaining = fillsQtySum fills' + rem := by
      simp only [tradeUpdate]
      simp only [fillsQtySum, List.map_cons, List.sum_cons] at hrr
      simp only [fillsQtySum] at hsum' ⊢
      omega
    revert happ
    cases happl : st.apply (Event.tradeOccurred sq tsn inst tid f.maker_order_id f.maker_price f.qty) with
    | error e => intro happ; simp [Bind.bind, Except.bind] at happ
    | ok st2 =>
      intro happ
      simp only [Bind.bind, Except.bind] at happ
      have hst2 : dictGet tid st2.orders = some (tradeUpdate rcd f.qty) := by
        simp only [EngineState.apply] at happl
        rw [hr] at happl
        try dsimp only at happl
        revert happl
        cases hmk : dictGet f.maker_order_id (dictSet tid (tradeUpdate rcd f.qty) st.orders) with
        | none =>
          intro happl
          simp only [Except.ok.injEq] at happl
          subst happl
          exact dictGet_dictSet_self tid (tradeUpdate rcd f.qty) st.orders
        | some rm =>
          intro happl
          try dsimp only at happl
          simp only [Except.ok.injEq] at happl
          subst happl
          rw [dictGet_dictSet_ne _ (Ne.symm hnef)]
          exact dictGet_dictSet_self tid (tradeUpdate rcd f.qty) st.orders
      exact ih hpos' hne' st2 (tradeUpdate rcd f.qty) hst2 hupd happ

/-- C5: remaining conservation.  For a well-formed book and a fresh taker
with quantity `Q = o.remaining`: (1) the filled quantity plus the
unmatched remainder equals `Q`; (2) for every other order id, the quantity
filled against it plus its resting remainder after equals its resting
remainder before (makers are conserved, fully-filled makers leave the
book); (3) applying the taker's `OrderAccepted` and then its
`TradeOccurred` events to any `EngineState` leaves the taker's
`OrderRecord` with `sum(trade qty) + remaining = Q`. -/
theorem remaining_conservation (b : OrderBook) (o : RestingOrder) (hwf : BookWF b)
    (hq : 0 ≤ o.remaining)
    (hfresh : ∀ m ∈ b.restingOrders, m.order_id ≠ o.order_id)
    {fills : List Fill} {rem : Int} {b' : OrderBook}
    (hok : b.place_limit o = .ok (fills, rem, b')) :
    fillsQtySum fills + rem = o.remaining
    ∧ (∀ id, id ≠ o.order_id →
        fillsQtyTo id fills + OrderBook.bookRemaining id b' = OrderBook.bookRemaining id b)
    ∧ ∀ (inst : String) (sq0 ts0 : Int) (st0 st1 stN : EngineState) (trades : List Event),
        st0.apply (.orderAccepted sq0 ts0 inst o.order_id o.side o.price o.remaining) = .ok st1 →
        List.Forall₂ (fun (t : Event) (f : Fill) => ∃ sq tsn,
          t = .tradeOccurred sq tsn inst o.order_id f.maker_order_id f.maker_price f.qty)
          trades fills →
        applyAllE st1 trades = .ok stN →
        ∃ rcd, dictGet o.order_id stN.orders = some rcd
          ∧ fillsQtySum fills + rcd.remaining = o.remaining ∧ rcd.remaining = rem := by
  have hmaker := place_limit_fills_from_makers b o hwf hok
  have hne : ∀ f ∈ fills, f.maker_order_id ≠ o.order_id := by
    intro f hf
    obtain ⟨m, hmr, hmid, _⟩ := hmaker f hf
    exact hmid ▸ hfresh m hmr
  obtain ⟨b1, hm, hcase⟩ := place_limit_ok_inv hok
  have hmain : fillsQtySum fills + rem = o.remaining
      ∧ (∀ id, id ≠ o.order_id →
          fillsQtyTo id fills + OrderBook.bookRemaining id b1 = OrderBook.bookRemaining id b)
      ∧ (∀ f ∈ fills, 0 ≤ f.qty) ∧ 0 ≤ rem := by
    cases hside : o.side with
    | BUY =>
      rw [hside] at hm
      obtain ⟨r, hms, rfl, rfl, rfl⟩ := match_buy_inv hm
      have hposlv : ∀ e ∈ b.asks, ∀ o' ∈ e.2.orders, 0 < o'.remaining :=
        fun e he o' ho' => ((hwf.asksWF e he).2 o' ho').2.2
      refine ⟨matchSide_conservation hms, ?_, ?_, matchSide_rem_nonneg hms hq⟩
      · intro id hid
        have := matchSide_maker hms hposlv id
        unfold OrderBook.bookRemaining
        try dsimp only
        omega
      · exact fun f hf => le_of_lt (matchSide_fills_pos hms f hf)
    | SELL =>
      rw [hside] at hm
      obtain ⟨r, hms, rfl, rfl, rfl⟩ := match_sell_inv hm
      have hposlv : ∀ e ∈ b.bids, ∀ o' ∈ e.2.orders, 0 < o'.remaining :=
        fun e he o' ho' => ((hwf.bidsWF e he).2 o' ho').2.2
      refine ⟨matchSide_conservation hms, ?_, ?_, matchSide_rem_nonneg hms hq⟩
      · intro id hid
        have := matchSide_maker hms hposlv id
        unfold OrderBook.bookRemaining
        try dsimp only
        omega
      · exact fun f hf => le_of_lt (matchSide_fills_pos hms f hf)
  obtain ⟨hcons, hmk, hpos, hremnn⟩ := hmain
  have hb' : ∀ id, id ≠ o.order_id →
      OrderBook.bookRemaining id b' = OrderBook.bookRemaining id b1 := by
    intro id hid
    rcases hcase with ⟨hr, rfl⟩ | ⟨hr, rfl⟩
    · exact rest_bookRemaining_ne (by simpa using hid)
    · rfl
  refine ⟨hcons, fun id hid => (hb' id hid) ▸ hmk id hid, ?_⟩
  intro inst sq0 ts0 st0 st1 stN trades happacc hf2 happN
  simp only [EngineState.apply, Except.ok.injEq] at happacc
  subst happacc
  have hst1 : dictGet o.order_id
      (dictSet o.order_id
        ⟨inst, o.order_id, o.side, o.price, o.remaining, o.remaining, .ACTIVE⟩ st0.orders)
      = some ⟨inst, o.order_id, o.side, o.price, o.remaining, o.remaining, .ACTIVE⟩ :=
    dictGet_dictSet_self _ _ _
  obtain ⟨rcd', hget', hrem'⟩ := trade_fold hf2 hpos hne hremnn _ _ hst1 (by simpa using hcons.symm) happN
  exact ⟨rcd', hget', by rw [hrem']; exact hcons, hrem'⟩

/-- Witness for C5 on the S4 book: `BUY ioc1 5@100` against `a1: 2@100`
fills 2, leaves 3, and `2 + 3 = 5`; maker `a1` is conserved. -/
theorem remaining_conservation_witness :
    ∃ fills rem b', iocBook.place_limit iocTaker = .ok (fills, rem, b') ∧
      fillsQtySum fills + rem = iocTaker.remaining ∧
      (∀ id, id ≠ iocTaker.order_id →
        fillsQtyTo id fills + OrderBook.bookRemaining id b'
          = OrderBook.bookRemaining id iocBook) := by
  have hok : iocBook.place_limit iocTaker = .ok ([⟨"a1", 100, 2⟩], 3,
      { instrument := "BTC-USD"
        bids := [(100, ⟨100, [⟨"ioc1", "BTC-USD", .BUY, 100, 3⟩]⟩)]
        asks := []
        bid_prices := [100]
        ask_prices := []
        orders_by_id := [("ioc1", (Side.BUY, 100))] }) := rfl
  have h := remaining_conservation iocBook iocTaker
    ⟨by decide, by decide, by decide, by decide⟩ (by decide) (by decide) hok
  exact ⟨_, _, _, hok, h.1, h.2.1⟩

end PyVenue
